import Mathlib

/-!
# Elliptics: SLRU cache page stepping, the srw script runner, the cache operations

A shallow embedding of

* `src/cache/slru_cache.hpp`: the two inline page-stepping helpers of
  `slru_cache_t`, `next_page_number` and `previous_page_number`
  (namespace `slru_cache_t`);
* `src/library/srw.c`: `dnet_srw_init` and `dnet_cmd_exec_python_script`,
  with the C strings and the `script` buffer modelled as lists of bytes
  (namespace `srw`);
* the cache operations `write`, `read`, `remove` and the page routines
  `insert_data_into_page`, `remove_data_from_page`, `resize_page`, which
  `slru_cache.hpp` only declares: they are modelled from the specification
  (namespace `slru_spec`).

`size_t` values are natural numbers, reduced modulo `2 ^ 64` where the C
arithmetic can wrap.  Bytes are natural numbers (`0` is NUL, `47` is `/`,
`10` is the line feed).  The definitions come first, the theorems after
them.
-/

namespace slru_cache_t

/-- Number of values of `size_t` (64-bit targets). -/
def SIZE_MOD : Nat := 2 ^ 64

/-- Embedding of `slru_cache_t::next_page_number` (slru_cache.hpp:41-46).
The subtraction is only reached with `page_number ≥ 1`, where it cannot wrap. -/
def next_page_number (page_number : Nat) : Nat :=
  if page_number = 0 then
    0
  else
    page_number - 1

/-- Embedding of `slru_cache_t::previous_page_number` (slru_cache.hpp:48-50):
`page_number + 1` in `size_t` arithmetic. -/
def previous_page_number (page_number : Nat) : Nat :=
  (page_number + 1) % SIZE_MOD

end slru_cache_t

namespace srw

/-! ## `src/library/srw.c` -/

/-- Linux `errno` value of `ENOMEM`. -/
def ENOMEM : Int := 12

/-- Linux `errno` value of `EINVAL`. -/
def EINVAL : Int := 22

/-- Linux `errno` value of `ENOTSUP`. -/
def ENOTSUP : Int := 95

/-- Byte value of the path separator. -/
def SLASH : Nat := 47

/-- The C string held in a buffer: its bytes before the first NUL (what
`%s`, `strlen` and `open` read). -/
def c_str (buf : List Nat) : List Nat :=
  buf.takeWhile (fun b => b ≠ 0)

/-- C `strlen`. -/
def strlen (buf : List Nat) : Nat :=
  (c_str buf).length

/-- The scanning loop of `strrchr(buf, ch)` for `ch ≠ 0`: walk to the
terminating NUL, remembering the index of the last byte equal to `ch`. -/
def strrchr_loop (ch : Nat) : List Nat → Nat → Option Nat → Option Nat
  | [], _, last => last
  | b :: rest, i, last =>
    if b = 0 then last
    else strrchr_loop ch rest (i + 1) (if b = ch then some i else last)

/-- C `strrchr(buf, ch)` for `ch ≠ 0`, as an index into `buf`
(`none` is the NULL result). -/
def strrchr (buf : List Nat) (ch : Nat) : Option Nat :=
  strrchr_loop ch buf 0 none

/-- Embedding of `struct dnet_srw_init_conf` (srw.c:38-41). -/
structure dnet_srw_init_conf where
  len : Nat
  name : List Nat
  deriving DecidableEq, Repr

/-- The `srw` part of `struct dnet_config` tested by `dnet_srw_init`; a
pointer field is `none` when NULL, else the bytes it points to.  (The field
`config`, which only gets a default and is logged, is left out.) -/
structure dnet_config_srw where
  init : Option (List Nat)
  binary : Option (List Nat)
  pipe : Option (List Nat)
  num : Int
  type : Int

/-- Lines 69-76 of `dnet_srw_init`: copy the init path with `sprintf "%s"`,
overwrite its last `/` (if any) with NUL, and record the length. -/
def dnet_srw_init_base (init : List Nat) : dnet_srw_init_conf :=
  let name := c_str init ++ [0]
  let name :=
    match strrchr name SLASH with
    | some rev => name.set rev 0
    | none => name
  { len := strlen name, name := name }

/-- Embedding of `dnet_srw_init` (srw.c:43-93).  The result is the return
value and `n->srw->priv` (`none` when `n->srw` stays NULL).  `SRW_TYPE_MAX`
stands for `__SRW_TYPE_MAX`, `malloc_ok` and `srwc_init_ok` say whether
`malloc` and `srwc_init` succeed. -/
def dnet_srw_init (SRW_TYPE_MAX : Int) (malloc_ok srwc_init_ok : Bool)
    (cfg : dnet_config_srw) : Int × Option dnet_srw_init_conf :=
  match cfg.init with
  | none => (0, none)
  | some init =>
    if cfg.num ≤ 0 ∨ cfg.type ≥ SRW_TYPE_MAX ∨ cfg.type < 0 ∨
        cfg.binary = none ∨ cfg.pipe = none then
      (0, none)
    else if malloc_ok = false then
      (-ENOMEM, none)
    else if srwc_init_ok = false then
      (-EINVAL, none)
    else
      (0, some (dnet_srw_init_base init))

/-- Embedding of `struct dnet_exec` as far as the script runner reads it:
the three sizes and the payload `data`. -/
structure dnet_exec where
  name_size : Nat
  script_size : Nat
  binary_size : Nat
  data : List Nat

/-- What the environment answers to the calls made by
`dnet_cmd_exec_python_script`: whether each `malloc` succeeds, the result
of `open` on a path (an `errno`, or the bytes of the file), the `errno` of
a failing `fstat` or `dnet_data_map`, and, for `dnet_cmd_exec_python_raw`,
the result of `srwc_process` on the command buffer, its size, the offset of
the binary part in the payload (`none` for NULL) and its size (return value
and reply size), and of `dnet_send_reply`. -/
structure sys_env where
  malloc_name_ok : Bool
  malloc_full_path_ok : Bool
  malloc_script_ok : Bool
  open_file : List Nat → Except Int (List Nat)
  fstat_errno : Option Int
  map_errno : Option Int
  srwc_process : List (Option Nat) → Nat → Option Nat → Nat → Int × Nat
  dnet_send_reply : Int

/-- Conversion of an unsigned value to C `int` (32 bits, two's complement). -/
def to_int (x : Nat) : Int :=
  if x % 2 ^ 32 < 2 ^ 31 then (x % 2 ^ 32 : Nat) else (x % 2 ^ 32 : Nat) - 2 ^ 32

/-- Conversion of a C `int` to `size_t` / `uint64_t`. -/
def to_size_t (x : Int) : Nat :=
  (x % 2 ^ 64).toNat

/-- Reading `n` bytes at offset `off` of a source object; `none` when the
range leaves the object. -/
def read_bytes (src : List Nat) (off n : Nat) : Option (List Nat) :=
  if off + n ≤ src.length then some ((src.drop off).take n) else none

/-- Writing the bytes `src` at offset `off` of a heap buffer, whose cells
are `none` until written; `none` when a written index is not below the
allocated size. -/
def memcpy (dst : List (Option Nat)) (off : Nat) (src : List Nat) :
    Option (List (Option Nat)) :=
  if off + src.length ≤ dst.length then
    some (dst.take off ++ src.map some ++ dst.drop (off + src.length))
  else none

/-- The assignment `dst[i] = b` on a heap buffer. -/
def store (dst : List (Option Nat)) (i b : Nat) : Option (List (Option Nat)) :=
  memcpy dst i [b]

/-- How a call ended: with a return value, or in an out-of-bounds access. -/
inductive Ret where
  | returned (err : Int)
  | undefined
  deriving DecidableEq, Repr

/-- Observable outcome of `dnet_cmd_exec_python_script`: how it ended, the
paths given to `open` in order, and the buffer and length handed to
`dnet_cmd_exec_python_raw` (if it was called). -/
structure Outcome where
  ret : Ret
  opened : List (List Nat)
  handed : Option (List (Option Nat) × Nat)

/-- Embedding of `dnet_cmd_exec_python_raw` (srw.c:103-133): the return
value for the command buffer `data` of length `size` and the binary part
`binary` of length `bsize`. -/
def dnet_cmd_exec_python_raw (env : sys_env) (data : List (Option Nat))
    (size : Nat) (binary : Option Nat) (bsize : Nat) : Int :=
  let r := env.srwc_process data size binary bsize
  if r.1 < 0 then r.1
  else if r.2 ≠ 0 then env.dnet_send_reply
  else r.1

/-- Lines 230-240 of `dnet_cmd_exec_python_script`: fill the buffer
`script` from the request payload and the mapped file `m_data`, and compute
the new `total`. -/
def fill_script (e : dnet_exec) (script : List (Option Nat))
    (m_data : List Nat) : Option (List (Option Nat) × Int) :=
  let m_size := m_data.length
  if e.script_size ≠ 0 then do
    let src ← read_bytes e.data e.name_size e.script_size
    let s1 ← memcpy script 0 src
    let s2 ← store s1 e.script_size 10
    let s3 ← memcpy s2 (e.script_size + 1) m_data
    let s4 ← store s3 (e.script_size + 1 + m_size) 0
    pure (s4, to_int (e.script_size + 1 + m_size + 1))
  else do
    let s1 ← memcpy script 0 m_data
    let s2 ← store s1 m_size 0
    pure (s2, to_int (m_size + 1))

/-- Lines 176-182 of `dnet_cmd_exec_python_script`: cut the buffer `name`
at its last `/`; the result is the buffer and the index `ptr`. -/
def cut_name (name : List Nat) : List Nat × Nat :=
  match strrchr name SLASH with
  | some i => (name.set i 0, i + 1)
  | none => (name, 0)

/-- Embedding of `dnet_cmd_exec_python_script` (srw.c:148-261).  `srw` is
`n->srw->priv` (`none` when `n->srw` is NULL). -/
def dnet_cmd_exec_python_script (env : sys_env)
    (srw : Option dnet_srw_init_conf) (e : dnet_exec) : Outcome :=
  match srw with
  | none => ⟨.returned (-ENOTSUP), [], none⟩
  | some base =>
    let binary : Option Nat :=
      if e.binary_size ≠ 0 then some (e.name_size + e.script_size) else none
    if env.malloc_name_ok = false then ⟨.returned (-ENOMEM), [], none⟩
    else
      match read_bytes e.data 0 e.name_size with
      | none => ⟨.undefined, [], none⟩
      | some bytes =>
        let cut := cut_name (bytes ++ [0])
        let name := cut.1
        let ptr := cut.2
        if name.getD ptr 0 = 0 then ⟨.returned (-EINVAL), [], none⟩
        else if env.malloc_full_path_ok = false then
          ⟨.returned (-ENOMEM), [], none⟩
        else
          let full_path := c_str base.name ++ [SLASH] ++ c_str (name.drop ptr)
          match env.open_file full_path with
          | .error errno => ⟨.returned (-errno), [full_path], none⟩
          | .ok file =>
            match env.fstat_errno with
            | some errno => ⟨.returned (-errno), [full_path], none⟩
            | none =>
              let total := to_int (file.length + e.script_size + 3)
              if env.malloc_script_ok = false then
                ⟨.returned (-ENOMEM), [full_path], none⟩
              else
                let script : List (Option Nat) :=
                  List.replicate (to_size_t total) none
                match env.map_errno with
                | some errno => ⟨.returned (-errno), [full_path], none⟩
                | none =>
                  match fill_script e script file with
                  | none => ⟨.undefined, [full_path], none⟩
                  | some (script, total) =>
                    let size := to_size_t total
                    ⟨.returned
                        (dnet_cmd_exec_python_raw env script size binary
                          e.binary_size),
                      [full_path], some (script, size)⟩

/-- The claim's words for the script name: the part of `s` after its last
`/`, all of `s` when it has none. -/
def after_last_slash (s : List Nat) : List Nat :=
  (s.reverse.takeWhile (fun b => b ≠ SLASH)).reverse

/-- The claim's words for the base directory: the path with its last
`/`-component (the last `/` and what follows it) removed; a path without
`/` has no such component and is kept whole. -/
def without_last_component (path : List Nat) : List Nat :=
  if SLASH ∈ path then
    ((path.reverse.dropWhile (fun b => b ≠ SLASH)).drop 1).reverse
  else path

/-- The claim's words for what the buffer `script` receives: the request
script, a line feed, the file contents and a NUL when the request carries a
script; the file contents and a NUL when it carries none. -/
def script_text (e : dnet_exec) (file : List Nat) : List Nat :=
  if e.script_size ≠ 0 then
    (e.data.drop e.name_size).take e.script_size ++ [10] ++ file ++ [0]
  else
    file ++ [0]

/-- The claim's words for `s`: the first `name_size` bytes of the request
payload, cut at the first NUL. -/
def script_name (e : dnet_exec) : List Nat :=
  (e.data.take e.name_size).takeWhile (fun b => b ≠ 0)

/-- A sample init path, `/s/i` with its terminating NUL. -/
def demo_init : List Nat := [47, 115, 47, 105, 0]

/-- A sample configuration that lets `dnet_srw_init` set up the context. -/
def demo_cfg : dnet_config_srw :=
  ⟨some demo_init, some [0], some [0], 1, 0⟩

/-- A sample environment: every allocation succeeds and the only file is
`/s/x`, holding the two bytes `7, 8`. -/
def demo_env : sys_env :=
  ⟨true, true, true,
    fun p => if p = [47, 115, 47, 120] then .ok [7, 8] else .error 2,
    none, none, fun _ _ _ _ => (0, 0), 0⟩

/-- A sample request: name `a/x` (3 bytes), script `h` (1 byte). -/
def demo_exec : dnet_exec :=
  ⟨3, 1, 0, [97, 47, 120, 104]⟩

end srw

namespace slru_spec

/-! ## The cache operations of `slru_cache_t`

`src/cache/slru_cache.hpp` declares `write`, `read`, `remove`,
`insert_data_into_page`, `remove_data_from_page` and `resize_page`; their
bodies (`slru_cache.cpp`) are not among the sources.  The definitions of
this section are modelled from the specification (§3, §4.2-§4.8, §7), for one
thread holding the cache mutex.  The lifecycle worker (§4.9), `lookup`,
`stop` and the statistics are outside the model, and the backend completes
every call.

The loop of `resize_page` (§4.8) has no exit while the page is over its
budget.  An operation whose loop cannot go on does not complete: it leaves
no state (`none`), and its answer is not delivered. -/

/-- Modelled from the spec: the key of §3, an opaque string of bytes (the
`const unsigned char *id` of the declarations in slru_cache.hpp). -/
abbrev Key := List Nat

/-- Modelled from the spec: the `timestamp` of §3, seconds and nanoseconds
(`dnet_time`, declared outside the sources). -/
structure dnet_time where
  tsec : Nat
  tnsec : Nat
  deriving DecidableEq, Repr

/-- Modelled from the spec: "the stored timestamp is newer than the incoming
one" (§4.3), on seconds then nanoseconds. -/
def newer (a b : dnet_time) : Bool :=
  decide (b.tsec < a.tsec) || (decide (a.tsec = b.tsec) && decide (b.tnsec < a.tnsec))

/-- Modelled from the spec: the entry of §3 (`data_t`, declared outside the
sources).  `none` is the deadline ∞.  `page_level` is the index of the page
list that holds the entry, `size` is `entry_size`, and `sync_in_progress` is
false whenever the mutex is free. -/
structure Entry where
  key : Key
  payload : List Nat
  user_flags : Nat
  timestamp : dnet_time
  lifetime_deadline : Option Nat
  sync_deadline : Option Nat
  dirty : Bool
  remove_from_disk : Bool
  append_mode : Bool
  deriving DecidableEq, Repr

/-- Modelled from the spec: what `backend_read` returns on success (§6). -/
structure Stored where
  payload : List Nat
  user_flags : Nat
  timestamp : dnet_time
  deriving DecidableEq, Repr

/-- Modelled from the spec: the backend collaborator of §6 with state `σ`;
`backend_read` is `none` for NotFound.  Every call completes (IoError, whose
handling during eviction §9 leaves open, is not modelled). -/
structure Backend (σ : Type) where
  backend_read : σ → Key → Option Stored
  backend_write : σ → Key → List Nat → Nat → dnet_time → Bool → σ
  backend_remove : σ → Key → σ

/-- Modelled from the spec: the error taxonomy of §7. -/
inductive Err where
  | NotFound
  | BadRange
  | CasMismatch
  | Stale
  | IoError
  | Stopped
  | Budget
  deriving DecidableEq, Repr

/-- Modelled from the spec: the cache state of §2/§4.2 (the private members
of `slru_cache_t`): the page budgets `page_max` (`m_cache_pages_max_sizes`),
the `P` page lists (`m_cache_pages_lru`, head = most recently used, page 0 =
coldest), the constant per-entry overhead of §3, the default sync interval
of §6 and the backend state. -/
structure Cache (σ : Type) where
  page_max : List Nat
  pages : List (List Entry)
  overhead : Nat
  sync_interval : Nat
  store : σ

variable {σ : Type}

/-- Modelled from the spec: `size` of §3, "`len(payload)` plus a small
constant overhead". -/
def entry_size (c : Cache σ) (e : Entry) : Nat :=
  e.payload.length + c.overhead

/-- Modelled from the spec: the number of pages `P` (§4.2,
`m_cache_pages_number`). -/
def pages_number (c : Cache σ) : Nat :=
  c.page_max.length

/-- Modelled from the spec: the LRU list of page `p` (§4.2). -/
def page (c : Cache σ) (p : Nat) : List Entry :=
  c.pages.getD p []

/-- Modelled from the spec: `current_size(p)` of §4.2, the byte total of
page `p` (`m_cache_pages_sizes[p]`). -/
def current_size (c : Cache σ) (p : Nat) : Nat :=
  ((page c p).map (entry_size c)).sum

/-- Modelled from the spec: `max_size(p)` of §4.2
(`m_cache_pages_max_sizes[p]`). -/
def max_size (c : Cache σ) (p : Nat) : Nat :=
  c.page_max.getD p 0

/-- Modelled from the spec: replacing the list of page `p` (§4.2). -/
def set_page (c : Cache σ) (p : Nat) (l : List Entry) : Cache σ :=
  { c with pages := c.pages.set p l }

/-- Modelled from the spec: `push_front(entry)` of §4.2 on page `p`. -/
def push_front (c : Cache σ) (p : Nat) (e : Entry) : Cache σ :=
  set_page c p (e :: page c p)

/-- Modelled from the spec: `pop_back()` of §4.2 on page `p`, the state
without the tail entry. -/
def pop_back (c : Cache σ) (p : Nat) : Cache σ :=
  set_page c p (page c p).dropLast

/-- Modelled from the spec: `unlink(entry)` of §4.2 (the declared
`remove_data_from_page`): page `p` without the entry of key `k`. -/
def remove_data_from_page (c : Cache σ) (p : Nat) (k : Key) : Cache σ :=
  set_page c p ((page c p).filter (fun e => decide (e.key ≠ k)))

/-- Modelled from the spec: lookup by key (§4.1) over the page lists from
index `i` on; the result is the page level and the entry. -/
def find_from : List (List Entry) → Nat → Key → Option (Nat × Entry)
  | [], _, _ => none
  | pg :: rest, i, k =>
    match pg.find? (fun e => decide (e.key = k)) with
    | some e => some (i, e)
    | none => find_from rest (i + 1) k

/-- Modelled from the spec: lookup by key (§4.1). -/
def find (c : Cache σ) (k : Key) : Option (Nat × Entry) :=
  find_from c.pages 0 k

/-- Modelled from the spec: the write-back of an unlinked entry (§4.8 step
3): "if `e.dirty` or `e.remove_from_disk`, synchronously write back or apply
the tombstone", then the entry is dropped. -/
def evict (B : Backend σ) (e : Entry) (c : Cache σ) : Cache σ :=
  { c with store :=
      if e.remove_from_disk then B.backend_remove c.store e.key
      else if e.dirty then
        B.backend_write c.store e.key e.payload e.user_flags e.timestamp e.append_mode
      else c.store }

/-- Modelled from the spec: the loop of `resize_page(level, need)` (§4.8),
"while `current_size(level) + need > max_size(level)`: take the tail entry
`e` of page `level`" and hand it to `step` (demotion or eviction).  The only
exit is the loop condition becoming false.  Each round takes one entry out
of the page, so the rounds are counted down from the length of the page
(a larger count changes nothing, `resize_loop_fuel`); when the page is
still over budget and no tail entry is left, the loop cannot go on:
`none`. -/
def resize_loop (step : Entry → Cache σ → Option (Cache σ)) (level need : Nat) :
    Nat → Cache σ → Option (Cache σ)
  | 0, c =>
    if current_size c level + need > max_size c level then none else some c
  | n + 1, c =>
    if current_size c level + need > max_size c level then
      match (page c level).getLast? with
      | none => none
      | some e =>
        (step e (pop_back c level)).bind
          (fun c1 => resize_loop step level need n c1)
    else some c

/-- Modelled from the spec: insertion at the front of page `p` with room
made by `resize` first: "if the destination page would exceed budget, invoke
`resize_page(dest, size)` before inserting" (§4.8). -/
def insert_with (resize : Nat → Cache σ → Option (Cache σ)) (p : Nat)
    (e : Entry) (c : Cache σ) : Option (Cache σ) :=
  (if current_size c p + entry_size c e > max_size c p then
      resize (entry_size c e) c
    else some c).map
    (fun c1 => push_front c1 p e)

/-- Modelled from the spec: `resize_page(level, need)` of §4.8 (declared at
slru_cache.hpp:60).  At `level > 0` the tail entry is demoted, "move `e` to
front of page `level - 1`", by the insertion above ("which may now need to
evict from `level - 1`"); at level 0 it is evicted. -/
def resize_page (B : Backend σ) : Nat → Nat → Cache σ → Option (Cache σ)
  | 0, need, c =>
    resize_loop (fun e c1 => some (evict B e c1)) 0 need (page c 0).length c
  | level + 1, need, c =>
    resize_loop (insert_with (resize_page B level) level) (level + 1) need
      (page c (level + 1)).length c

/-- Modelled from the spec: insertion at the front of page `p` (declared at
slru_cache.hpp:52), with `resize_page(p, size)` run first when the page
would exceed its budget (§4.8). -/
def insert_data_into_page (B : Backend σ) (p : Nat) (e : Entry)
    (c : Cache σ) : Option (Cache σ) :=
  insert_with (resize_page B p) p e c

/-- Modelled from the spec: promotion on hit (§4.8), "move the entry from its
current page to the front of page `level + 1`, capped at `P-1`". -/
def promote (B : Backend σ) (c : Cache σ) (level : Nat) (e : Entry) :
    Option (Cache σ) :=
  insert_data_into_page B (min (level + 1) (pages_number c - 1)) e
    (remove_data_from_page c level e.key)

/-- Modelled from the spec: the synchronous flush of an entry (§4.7, §4.9):
the backend write (with the append opcode in append mode), after which the
entry is clean, out of append mode and has no sync deadline. -/
def flush (B : Backend σ) (store : σ) (e : Entry) : σ × Entry :=
  (B.backend_write store e.key e.payload e.user_flags e.timestamp e.append_mode,
    { e with dirty := false, append_mode := false, sync_deadline := none })

/-- Modelled from the spec: the inputs of `write` (§4.3); `now_time` is the
wall clock at the call. -/
structure WriteReq where
  key : Key
  payload : List Nat
  user_flags : Nat
  timestamp : dnet_time
  cache_only : Bool
  append : Bool
  overwrite : Bool
  lifetime_ttl : Option Nat
  sync_ttl : Option Nat
  compare_and_swap_timestamp : Option dnet_time
  now_time : Nat

/-- Modelled from the spec: step 3 of `write` (§4.3): "set `dirty` unless
`cache_only`", the lifetime deadline from `lifetime_ttl` (∞ if absent), the
sync deadline from `sync_ttl` (the configured interval when the write gives
none, ∞ if `cache_only`). -/
def stamp (c : Cache σ) (r : WriteReq) (e : Entry) (payload : List Nat) : Entry :=
  { e with
    payload := payload
    user_flags := r.user_flags
    timestamp := r.timestamp
    append_mode := r.append
    dirty := if r.cache_only then e.dirty else true
    lifetime_deadline := r.lifetime_ttl.map (fun t => r.now_time + t)
    sync_deadline :=
      if r.cache_only then none
      else some (r.now_time + r.sync_ttl.getD c.sync_interval) }

/-- Modelled from the spec: the fresh entry of a write miss (§4.3 step 2),
"initialized with the payload and metadata". -/
def fresh_entry (c : Cache σ) (r : WriteReq) : Entry :=
  stamp c r
    { key := r.key, payload := [], user_flags := 0, timestamp := r.timestamp,
      lifetime_deadline := none, sync_deadline := none, dirty := false,
      remove_from_disk := false, append_mode := false }
    r.payload

/-- Modelled from the spec: the write-back that precedes a write to an
existing entry: an append to a dirty entry not yet in append mode is
preceded by "an immediate write-back" (§4.3 step 4), a non-append write to
an entry in append mode by "a synchronous flush" (§4.7). -/
def write_sync (B : Backend σ) (store : σ) (r : WriteReq) (e : Entry) :
    σ × Entry :=
  if r.append = true ∧ e.append_mode = false ∧ e.dirty = true then
    flush B store e
  else if r.append = false ∧ e.append_mode = true then
    flush B store e
  else (store, e)

/-- Modelled from the spec: the entry after a write to it (§4.3 step 1 and
3): "if `append` flag is set: append payload to the entry's buffer ...
otherwise replace the buffer". -/
def rewritten (c : Cache σ) (r : WriteReq) (e : Entry) : Entry :=
  stamp c r e (if r.append then e.payload ++ r.payload else r.payload)

/-- Modelled from the spec: the Stale test of a write miss (§4.3 step 2):
"if `cache_only` is false, attempt ... populate-from-disk.  If disk read
succeeds and the stored `timestamp` is newer than the incoming one, fail
with Stale unless the caller requested overwrite". -/
def is_stale (B : Backend σ) (c : Cache σ) (r : WriteReq) : Bool :=
  if r.cache_only then false
  else
    match B.backend_read c.store r.key with
    | some s => newer s.timestamp r.timestamp && !r.overwrite
    | none => false

/-- Modelled from the spec: `write` of §4.3 (declared at slru_cache.hpp:16);
the result is the answer, the new timestamp or a typed error (§7), and the
state the write leaves (`none` when it does not complete).
A write to an existing entry checks the compare-and-swap timestamp first.
The entry leaves its page while its size changes, room for the new size is
reserved on its page, and it is promoted "to the highest page level".  A
miss consults the backend unless `cache_only` (the Stale test) and creates
the entry on page 0.  A write "whose size alone exceeds its target page's
max" fails with Budget. -/
def write (B : Backend σ) (c : Cache σ) (r : WriteReq) :
    Except Err dnet_time × Option (Cache σ) :=
  match find c r.key with
  | some (level, e) =>
    if r.compare_and_swap_timestamp.isSome ∧
        r.compare_and_swap_timestamp ≠ some e.timestamp then
      (.error .CasMismatch, some c)
    else
      let synced := write_sync B c.store r e
      let e2 := rewritten c r synced.2
      let top := pages_number c - 1
      if entry_size c e2 > max_size c top then (.error .Budget, some c)
      else
        let c1 := { c with store := synced.1 }
        let c2 := remove_data_from_page c1 level r.key
        (.ok r.timestamp,
          (resize_page B level (entry_size c e2) c2).bind
            (fun c3 => insert_data_into_page B top e2 c3))
  | none =>
    if is_stale B c r then (.error .Stale, some c)
    else
      let e := fresh_entry c r
      if entry_size c e > max_size c 0 then (.error .Budget, some c)
      else (.ok r.timestamp, insert_data_into_page B 0 e c)

/-- Modelled from the spec: the inputs of `read` (§4.4). -/
structure ReadReq where
  key : Key
  offset : Option Nat
  size : Option Nat
  cache_only : Bool

/-- Modelled from the spec: the view returned by `read` (§4.4), the payload
"from `offset` for `size` bytes"; "if `offset + size > len(payload)` fail
with BadRange".  An absent offset is 0, an absent size the rest of the
payload. -/
def view (payload : List Nat) (offset size : Option Nat) : Except Err (List Nat) :=
  let off := offset.getD 0
  let sz := size.getD (payload.length - off)
  if off + sz > payload.length then .error .BadRange
  else .ok ((payload.drop off).take sz)

/-- Modelled from the spec: the entry installed by populate-from-disk
(§4.6), clean and without deadlines. -/
def populated_entry (k : Key) (s : Stored) : Entry :=
  { key := k, payload := s.payload, user_flags := s.user_flags,
    timestamp := s.timestamp, lifetime_deadline := none,
    sync_deadline := none, dirty := false, remove_from_disk := false,
    append_mode := false }

/-- Modelled from the spec: the flush that precedes a read of an entry in
append mode: "a read while `append_mode` is set forces a synchronous flush
first" (§4.7). -/
def read_sync (B : Backend σ) (store : σ) (e : Entry) : σ × Entry :=
  if e.append_mode then flush B store e else (store, e)

/-- Modelled from the spec: `read` of §4.4 (declared at slru_cache.hpp:18);
the result is the answer and the state the read leaves (`none` when it does
not complete).  On a hit an entry in append mode is flushed first (§4.7),
the entry is promoted (§4.8) and the requested view of its payload is
returned.  On a miss the entry is populated from the backend onto page 0,
unless `cache_only` or the backend has none (NotFound). -/
def read (B : Backend σ) (c : Cache σ) (r : ReadReq) :
    Except Err (List Nat) × Option (Cache σ) :=
  match find c r.key with
  | some (level, e) =>
    let synced := read_sync B c.store e
    (view e.payload r.offset r.size,
      promote B { c with store := synced.1 } level synced.2)
  | none =>
    if r.cache_only then (.error .NotFound, some c)
    else
      match B.backend_read c.store r.key with
      | none => (.error .NotFound, some c)
      | some s =>
        (view s.payload r.offset r.size,
          insert_data_into_page B 0 (populated_entry r.key s) c)

/-- Modelled from the spec: `remove` of §4.5 (declared at
slru_cache.hpp:20): an existing entry gets `remove_from_disk` "unless
`cache_only` flag is passed", is no longer dirty and is evicted at once (the
tombstone is applied); for an absent key the delete is forwarded to the
backend unless `cache_only`.  It "returns success even when the key is
absent". -/
def remove (B : Backend σ) (c : Cache σ) (k : Key) (cache_only : Bool) :
    Except Err Unit × Option (Cache σ) :=
  match find c k with
  | some (level, e) =>
    (.ok (),
      some (evict B
        { e with
          remove_from_disk := if cache_only then e.remove_from_disk else true
          dirty := false }
        (remove_data_from_page c level k)))
  | none =>
    if cache_only then (.ok (), some c)
    else (.ok (), some { c with store := B.backend_remove c.store k })

/-- Modelled from the spec: one public operation on the cache (§6), here
`write`, `read` or `remove`. -/
inductive Op where
  | write (r : WriteReq)
  | read (r : ReadReq)
  | remove (k : Key) (cache_only : Bool)

/-- Modelled from the spec: the state after one operation, `none` when the
operation does not complete. -/
def step (B : Backend σ) (c : Cache σ) : Op → Option (Cache σ)
  | .write r => (write B c r).2
  | .read r => (read B c r).2
  | .remove k co => (remove B c k co).2

/-- Modelled from the spec: the state after a sequence of operations, `none`
when one of them does not complete. -/
def run (B : Backend σ) : Cache σ → List Op → Option (Cache σ)
  | c, [] => some c
  | c, op :: ops => (step B c op).bind (fun c1 => run B c1 ops)

/-- Modelled from the spec: the states after each operation of a sequence
(§8, "after each operation"), up to the first operation that does not
complete. -/
def trace (B : Backend σ) : Cache σ → List Op → List (Cache σ)
  | _, [] => []
  | c, op :: ops =>
    match step B c op with
    | none => []
    | some c1 => c1 :: trace B c1 ops

/-- Modelled from the spec: a cache built with the page budgets `page_max`
(§4.2, the constructor declared at slru_cache.hpp:10), all pages empty. -/
def create (page_max : List Nat) (overhead sync_interval : Nat) (store : σ) :
    Cache σ :=
  { page_max := page_max, pages := page_max.map (fun _ => []),
    overhead := overhead, sync_interval := sync_interval, store := store }

/-- Modelled from the spec: invariant 3 of §3 (Budget), "for each page `p`,
Σ `size` of entries in page `p` ≤ `page_max[p]`". -/
def budget_ok (c : Cache σ) : Prop :=
  ∀ p, p < pages_number c → current_size c p ≤ max_size c p

/-- Modelled from the spec: all entries of the cache, page by page. -/
def entries (c : Cache σ) : List Entry :=
  c.pages.flatten

/-- Modelled from the spec: invariants 1 and 2 of §3, "at most one entry per
key" and "an entry is in exactly one page list": no key occurs twice in the
`P` page lists. -/
def one_page_each (c : Cache σ) : Prop :=
  c.pages.length = pages_number c ∧ ((entries c).map Entry.key).Nodup

/-- Modelled from the spec: every entry held has a `size` within the budget
of every page. -/
def fits_every_page (c : Cache σ) : Prop :=
  ∀ e ∈ entries c, ∀ m ∈ c.page_max, entry_size c e ≤ m

/-- A backend for examples: an association list from keys to stored
records; an append write extends the stored payload. -/
def list_backend : Backend (List (Key × Stored)) where
  backend_read s k := (s.find? (fun x => decide (x.1 = k))).map Prod.snd
  backend_write s k payload user_flags timestamp append :=
    (k, ⟨(if append then
            ((s.find? (fun x => decide (x.1 = k))).map (fun x => x.2.payload)).getD []
          else []) ++ payload, user_flags, timestamp⟩) ::
      s.filter (fun x => decide (x.1 ≠ k))
  backend_remove s k := s.filter (fun x => decide (x.1 ≠ k))

/-- A plain write request: no append, no compare-and-swap, no deadlines. -/
def plain_write (k : Key) (payload : List Nat) (t : Nat) (cache_only : Bool) :
    WriteReq :=
  { key := k, payload := payload, user_flags := 0, timestamp := ⟨t, 0⟩,
    cache_only := cache_only, append := false, overwrite := false,
    lifetime_ttl := none, sync_ttl := none,
    compare_and_swap_timestamp := none, now_time := t }

/-- A read request for the whole payload. -/
def whole_read (k : Key) (cache_only : Bool) : ReadReq :=
  { key := k, offset := none, size := none, cache_only := cache_only }

/-- Modelled from the spec: the entry an operation puts at the front of a
page, if any: the rewritten or fresh entry of a write that is accepted
(§4.3), the entry promoted or populated by a read (§4.4). -/
def incoming (B : Backend σ) (c : Cache σ) : Op → Option Entry
  | .write r =>
    match find c r.key with
    | some (_, e) =>
      if r.compare_and_swap_timestamp.isSome ∧
          r.compare_and_swap_timestamp ≠ some e.timestamp then none
      else if entry_size c (rewritten c r (write_sync B c.store r e).2) >
          max_size c (pages_number c - 1) then none
      else some (rewritten c r (write_sync B c.store r e).2)
    | none =>
      if is_stale B c r then none
      else if entry_size c (fresh_entry c r) > max_size c 0 then none
      else some (fresh_entry c r)
  | .read r =>
    match find c r.key with
    | some (_, e) => some (read_sync B c.store e).2
    | none =>
      if r.cache_only then none
      else (B.backend_read c.store r.key).map (populated_entry r.key)
  | .remove _ _ => none

/-- The entry of `k` found in the cache carries the payload `v`. -/
def holds (k : Key) (v : List Nat) (c : Cache σ) : Prop :=
  ∃ p e, find c k = some (p, e) ∧ e.payload = v

/-- Two cache states with the same configuration and number of page lists. -/
def same_frame (c c' : Cache σ) : Prop :=
  c'.page_max = c.page_max ∧ c'.overhead = c.overhead ∧
    c'.sync_interval = c.sync_interval ∧ c'.pages.length = c.pages.length

/-- The state `c'` has the frame of `c` and the same page lists from
`level` upwards. -/
def same_from (level : Nat) (c c' : Cache σ) : Prop :=
  same_frame c c' ∧ ∀ q, level ≤ q → page c' q = page c q

/-- The entry `e` is within the budget of every page of `c`. -/
def fits (c : Cache σ) (e : Entry) : Prop :=
  ∀ m ∈ c.page_max, entry_size c e ≤ m

/-- The page lists match the budgets and every page is within its budget. -/
def within_budget (c : Cache σ) : Prop :=
  c.pages.length = c.page_max.length ∧ budget_ok c

instance fits_every_page_decidable (c : Cache σ) : Decidable (fits_every_page c) := by
  unfold fits_every_page
  infer_instance

instance one_page_each_decidable (c : Cache σ) : Decidable (one_page_each c) := by
  unfold one_page_each
  infer_instance

instance budget_ok_decidable (c : Cache σ) : Decidable (budget_ok c) := by
  unfold budget_ok
  infer_instance

instance within_budget_decidable (c : Cache σ) : Decidable (within_budget c) := by
  unfold within_budget
  infer_instance

instance fits_decidable (c : Cache σ) (e : Entry) : Decidable (fits c e) := by
  unfold fits
  infer_instance

/-- A write request with a compare-and-swap timestamp. -/
def cas_write (k : Key) (payload : List Nat) (t : Nat) (cas : dnet_time) :
    WriteReq :=
  { plain_write k payload t false with compare_and_swap_timestamp := some cas }

/-- An empty cache over the example backend, with no per-entry overhead. -/
def empty_cache (page_max : List Nat) : Cache (List (Key × Stored)) :=
  create page_max 0 0 []

/-- The keys held page by page. -/
def page_keys (c : Cache σ) : List (List Key) :=
  c.pages.map (fun pg => pg.map Entry.key)

/-- The state a write leaves on an empty cache over the example backend
(the empty cache if the write does not complete). -/
def after_write (page_max : List Nat) (r : WriteReq) : Cache (List (Key × Stored)) :=
  ((write list_backend (empty_cache page_max) r).2).getD (empty_cache page_max)

/-- A write of ten bytes `7` to the key `a`. -/
def write_a (cache_only : Bool) : WriteReq :=
  plain_write [97] (List.replicate 10 7) 1 cache_only

end slru_spec

namespace slru_cache_t

theorem next_page_number_eq_pred (n : Nat) : next_page_number n = n - 1 := by
  cases n <;> simp [next_page_number]

theorem iterate_next_page_number (j L : Nat) :
    Nat.iterate next_page_number j L = L - j := by
  induction j generalizing L with
  | zero => simp
  | succ j ih =>
    rw [Function.iterate_succ_apply, ih, next_page_number_eq_pred]
    omega

theorem previous_page_number_of_lt (n : Nat) (h : n + 1 < SIZE_MOD) :
    previous_page_number n = n + 1 := by
  unfold previous_page_number
  exact Nat.mod_eq_of_lt h

/-- C1, as the code has it: for a page count `P ≥ 1` (a `size_t`) and a level
`< P`, `previous_page_number` returns `level + 1` with no cap; this is
`min (level + 1) (P - 1)` and a valid page index when `level < P - 1`, and
it is `P`, one past the last page, when `level = P - 1`. -/
theorem previous_page_number_uncapped (P level : Nat) (hP : 1 ≤ P)
    (hsize : P < SIZE_MOD) (hlevel : level < P) :
    previous_page_number level = level + 1 ∧
    (level < P - 1 →
      previous_page_number level = min (level + 1) (P - 1) ∧
      previous_page_number level < P) ∧
    (level = P - 1 → previous_page_number level = P) := by
  have h : previous_page_number level = level + 1 :=
    previous_page_number_of_lt level (by omega)
  refine ⟨h, ?_, ?_⟩
  · intro hl
    rw [h]
    omega
  · intro hl
    rw [h]
    omega

theorem previous_page_number_uncapped_witness :
    previous_page_number 1 = 1 + 1 ∧
    (1 < 3 - 1 →
      previous_page_number 1 = min (1 + 1) (3 - 1) ∧
      previous_page_number 1 < 3) ∧
    (1 = 3 - 1 → previous_page_number 1 = 3) :=
  previous_page_number_uncapped 3 1 (by decide) (by decide) (by decide)

/-- C1 fails as stated: with one page (`P = 1`) and `level = 0 = P - 1` the
helper returns `1`, which is neither `P - 1 = 0` nor a page index `< P`. -/
theorem previous_page_number_not_capped :
    previous_page_number 0 = 1 ∧
    previous_page_number 0 ≠ min (0 + 1) (1 - 1) ∧
    ¬ previous_page_number 0 < 1 := by
  decide

/-- C2: for every level `> 0` the demotion step `next_page_number` returns
exactly `level - 1`, and `next_page_number 0 = 0`; so from any level one
step lowers the level by at most one, and its result is a page number again
(a natural number, never below page 0). -/
theorem next_page_number_demotes (level : Nat) (h : 0 < level) :
    next_page_number level = level - 1 ∧
    next_page_number level + 1 = level ∧
    next_page_number 0 = 0 ∧
    (∀ l, l - next_page_number l ≤ 1) ∧
    (∀ l, next_page_number l ≤ l) := by
  refine ⟨next_page_number_eq_pred level, ?_, by simp [next_page_number], ?_, ?_⟩
  · rw [next_page_number_eq_pred]
    omega
  · intro l
    rw [next_page_number_eq_pred]
    omega
  · intro l
    rw [next_page_number_eq_pred]
    omega

theorem next_page_number_demotes_witness :
    next_page_number 5 = 5 - 1 ∧
    next_page_number 5 + 1 = 5 ∧
    next_page_number 0 = 0 ∧
    (∀ l, l - next_page_number l ≤ 1) ∧
    (∀ l, next_page_number l ≤ l) :=
  next_page_number_demotes 5 (by decide)

/-- C3, as the code has it: for every level below `SIZE_MAX = 2 ^ 64 - 1`
the promotion step does not lower the level (it is `level + 1`), and for
every level the demotion step does not raise it. -/
theorem page_step_monotone (level : Nat) (h : level + 1 < SIZE_MOD) :
    level ≤ previous_page_number level ∧
    next_page_number level ≤ level := by
  rw [previous_page_number_of_lt level h, next_page_number_eq_pred]
  omega

theorem page_step_monotone_witness :
    7 ≤ previous_page_number 7 ∧ next_page_number 7 ≤ 7 :=
  page_step_monotone 7 (by decide)

/-- C3 fails as stated at `level = SIZE_MAX = 2 ^ 64 - 1`, a value of
`size_t`: `level + 1` wraps to `0`, which is below the level. -/
theorem previous_page_number_wraps :
    2 ^ 64 - 1 < SIZE_MOD ∧
    previous_page_number (2 ^ 64 - 1) = 0 ∧
    ¬ (2 ^ 64 - 1 ≤ previous_page_number (2 ^ 64 - 1)) := by
  decide

/-- C8: from every starting level `L`, repeated `next_page_number` reaches
`0` after exactly `L` applications and not earlier; each application made
from a level `> 0` strictly decreases it; `0` is the only fixed point. -/
theorem next_page_number_cascade (L : Nat) :
    Nat.iterate next_page_number L L = 0 ∧
    (∀ j, j < L → Nat.iterate next_page_number j L ≠ 0) ∧
    (∀ l, 0 < l → next_page_number l < l) ∧
    (∀ l, next_page_number l = l ↔ l = 0) := by
  refine ⟨?_, ?_, ?_, ?_⟩
  · rw [iterate_next_page_number]
    omega
  · intro j hj
    rw [iterate_next_page_number]
    omega
  · intro l hl
    rw [next_page_number_eq_pred]
    omega
  · intro l
    rw [next_page_number_eq_pred]
    omega

/-- The two page steps undo each other away from the ends: stepping to
`page_number + 1` and back gives the page again (below `SIZE_MAX`), and
stepping from a page `> 0` to `page_number - 1` and forward gives it again. -/
theorem page_steps_inverse (n : Nat) (h0 : 0 < n) (h : n + 1 < SIZE_MOD) :
    next_page_number (previous_page_number n) = n ∧
    previous_page_number (next_page_number n) = n := by
  rw [previous_page_number_of_lt n h, next_page_number_eq_pred,
    next_page_number_eq_pred, previous_page_number_of_lt (n - 1) (by omega)]
  omega

theorem page_steps_inverse_witness :
    next_page_number (previous_page_number 4) = 4 ∧
    previous_page_number (next_page_number 4) = 4 :=
  page_steps_inverse 4 (by decide) (by decide)

end slru_cache_t

namespace srw

theorem takeWhile_append_stop {α : Type} (p : α → Bool) (l1 l2 : List α) (a : α)
    (h1 : ∀ x ∈ l1, p x = true) (ha : p a = false) :
    (l1 ++ a :: l2).takeWhile p = l1 := by
  induction l1 with
  | nil => simp [List.takeWhile, ha]
  | cons b t ih =>
    have hb : p b = true := h1 b (List.mem_cons_self _ _)
    have ht : ∀ x ∈ t, p x = true := fun x hx => h1 x (List.mem_cons_of_mem _ hx)
    simp [List.takeWhile, hb, ih ht]

theorem dropWhile_append_stop {α : Type} (p : α → Bool) (l1 l2 : List α) (a : α)
    (h1 : ∀ x ∈ l1, p x = true) (ha : p a = false) :
    (l1 ++ a :: l2).dropWhile p = a :: l2 := by
  induction l1 with
  | nil => simp [List.dropWhile, ha]
  | cons b t ih =>
    have hb : p b = true := h1 b (List.mem_cons_self _ _)
    have ht : ∀ x ∈ t, p x = true := fun x hx => h1 x (List.mem_cons_of_mem _ hx)
    simp [List.dropWhile, hb, ih ht]

theorem takeWhile_all {α : Type} (p : α → Bool) (l : List α)
    (h : ∀ x ∈ l, p x = true) : l.takeWhile p = l := by
  induction l with
  | nil => rfl
  | cons b t ih =>
    have hb : p b = true := h b (List.mem_cons_self _ _)
    have ht : ∀ x ∈ t, p x = true := fun x hx => h x (List.mem_cons_of_mem _ hx)
    simp [List.takeWhile, hb, ih ht]

theorem c_str_append_nul (s rest : List Nat) (hs : 0 ∉ s) :
    c_str (s ++ 0 :: rest) = s := by
  unfold c_str
  apply takeWhile_append_stop
  · intro x hx
    have : x ≠ 0 := fun h => hs (h ▸ hx)
    simpa using this
  · simp

theorem c_str_no_nul (buf : List Nat) : 0 ∉ c_str buf := by
  unfold c_str
  intro h
  have := List.mem_takeWhile_imp h
  simp at this

theorem exists_nul_split (l : List Nat) :
    ∃ rest, l ++ [0] = c_str l ++ 0 :: rest := by
  induction l with
  | nil => exact ⟨[], rfl⟩
  | cons b t ih =>
    obtain ⟨rest, hrest⟩ := ih
    by_cases hb : b = 0
    · subst hb
      exact ⟨t ++ [0], by simp [c_str, List.takeWhile]⟩
    · refine ⟨rest, ?_⟩
      have : c_str (b :: t) = b :: c_str t := by simp [c_str, List.takeWhile, hb]
      rw [this, List.cons_append, hrest, List.cons_append]

theorem exists_last_split (ch : Nat) (s : List Nat) (h : ch ∈ s) :
    ∃ pre post, s = pre ++ ch :: post ∧ ch ∉ post := by
  induction s with
  | nil => simp at h
  | cons b t ih =>
    by_cases ht : ch ∈ t
    · obtain ⟨pre, post, hs, hp⟩ := ih ht
      exact ⟨b :: pre, post, by rw [hs, List.cons_append], hp⟩
    · have hb : ch = b := by
        rcases List.mem_cons.1 h with h | h
        · exact h
        · exact absurd h ht
      subst hb
      exact ⟨[], t, rfl, ht⟩

theorem strrchr_loop_absent (ch : Nat) (s rest : List Nat) (i : Nat)
    (last : Option Nat) (hch : ch ∉ s) :
    strrchr_loop ch (s ++ 0 :: rest) i last = last := by
  induction s generalizing i with
  | nil => simp [strrchr_loop]
  | cons b t ih =>
    have hb : b ≠ ch := fun h => hch (h ▸ List.mem_cons_self _ _)
    have ht : ch ∉ t := fun h => hch (List.mem_cons_of_mem _ h)
    by_cases hz : b = 0
    · simp [strrchr_loop, hz]
    · simp [strrchr_loop, hz, hb, ih _ ht]

theorem strrchr_loop_last (ch : Nat) (pre post rest : List Nat) (i : Nat)
    (last : Option Nat) (hpre : 0 ∉ pre) (hne : ch ≠ 0) (hpost : ch ∉ post) :
    strrchr_loop ch (pre ++ ch :: (post ++ 0 :: rest)) i last =
      some (i + pre.length) := by
  induction pre generalizing i last with
  | nil =>
    simp [strrchr_loop, hne, strrchr_loop_absent ch post rest _ _ hpost]
  | cons b t ih =>
    have hb : b ≠ 0 := fun h => hpre (h ▸ List.mem_cons_self _ _)
    have ht : 0 ∉ t := fun h => hpre (List.mem_cons_of_mem _ h)
    have step : strrchr_loop ch (b :: t ++ ch :: (post ++ 0 :: rest)) i last =
        strrchr_loop ch (t ++ ch :: (post ++ 0 :: rest)) (i + 1)
          (if b = ch then some i else last) := by
      simp [strrchr_loop, hb]
    rw [step, ih _ _ ht, List.length_cons]
    congr 1
    omega

theorem after_last_slash_split (pre post : List Nat) (hpost : SLASH ∉ post) :
    after_last_slash (pre ++ SLASH :: post) = post := by
  unfold after_last_slash
  rw [List.reverse_append, List.reverse_cons, List.append_assoc,
    List.singleton_append, takeWhile_append_stop, List.reverse_reverse]
  · intro x hx
    have : x ≠ SLASH := fun h => hpost (h ▸ List.mem_reverse.1 hx)
    simpa using this
  · simp

theorem after_last_slash_absent (s : List Nat) (h : SLASH ∉ s) :
    after_last_slash s = s := by
  unfold after_last_slash
  rw [takeWhile_all, List.reverse_reverse]
  intro x hx
  have : x ≠ SLASH := fun hh => h (hh ▸ List.mem_reverse.1 hx)
  simpa using this

theorem without_last_component_split (pre post : List Nat)
    (hpost : SLASH ∉ post) :
    without_last_component (pre ++ SLASH :: post) = pre := by
  unfold without_last_component
  rw [if_pos (by simp), List.reverse_append, List.reverse_cons,
    List.append_assoc, List.singleton_append, dropWhile_append_stop]
  · simp
  · intro x hx
    have : x ≠ SLASH := fun h => hpost (h ▸ List.mem_reverse.1 hx)
    simpa using this
  · simp

theorem after_last_slash_no_slash (s : List Nat) :
    SLASH ∉ after_last_slash s := by
  by_cases h : SLASH ∈ s
  · obtain ⟨pre, post, hs, hp⟩ := exists_last_split SLASH s h
    rw [hs, after_last_slash_split pre post hp]
    exact hp
  · rw [after_last_slash_absent s h]
    exact h

theorem set_append_length {α : Type} (pre rest : List α) (a b : α) :
    (pre ++ a :: rest).set pre.length b = pre ++ b :: rest := by
  induction pre with
  | nil => rfl
  | cons x t ih => simp [List.set, ih]

theorem drop_append_succ_length {α : Type} (pre rest : List α) (a : α) :
    (pre ++ a :: rest).drop (pre.length + 1) = rest := by
  induction pre with
  | nil => rfl
  | cons x t ih => simp [ih]

theorem getD_eq_headD_drop {α : Type} (l : List α) (n : Nat) (d : α) :
    l.getD n d = (l.drop n).headD d := by
  induction l generalizing n with
  | nil => simp
  | cons x t ih =>
    cases n with
    | zero => simp
    | succ n => simp [ih n]

theorem headD_nul_iff (post rest : List Nat) (hpost : 0 ∉ post) :
    (post ++ 0 :: rest).headD 0 = 0 ↔ post = [] := by
  cases post with
  | nil => simp
  | cons b t =>
    have hb : b ≠ 0 := fun h => hpost (h ▸ List.mem_cons_self _ _)
    simp [hb]

/-- Lines 173-184: after the copy of the name and the cut at its last `/`,
`ptr` points to the claim's component `c`, and `*ptr` is NUL exactly when
`c` is empty. -/
theorem name_cut (bytes : List Nat) :
    ((cut_name (bytes ++ [0])).1.getD (cut_name (bytes ++ [0])).2 0 = 0 ↔
      after_last_slash (c_str bytes) = []) ∧
    c_str ((cut_name (bytes ++ [0])).1.drop (cut_name (bytes ++ [0])).2) =
      after_last_slash (c_str bytes) := by
  obtain ⟨rest, hrest⟩ := exists_nul_split bytes
  have hs : 0 ∉ c_str bytes := c_str_no_nul bytes
  generalize hn : bytes ++ [0] = name at hrest
  by_cases h : SLASH ∈ c_str bytes
  · obtain ⟨pre, post, hsplit, hpost⟩ := exists_last_split SLASH _ h
    have hpre0 : 0 ∉ pre := fun hh => hs (by rw [hsplit]; simp [hh])
    have hpost0 : 0 ∉ post := fun hh => hs (by rw [hsplit]; simp [hh])
    have hname : name = pre ++ SLASH :: (post ++ 0 :: rest) := by
      rw [hrest, hsplit]
      simp
    have hidx : strrchr name SLASH = some pre.length := by
      rw [hname]
      unfold strrchr
      rw [strrchr_loop_last SLASH pre post rest 0 none hpre0 (by decide) hpost]
      simp
    have hcut : cut_name name = (pre ++ 0 :: (post ++ 0 :: rest), pre.length + 1) := by
      unfold cut_name
      rw [hidx]
      simp only
      rw [hname, set_append_length]
    rw [hcut, hsplit, after_last_slash_split pre post hpost]
    simp only
    rw [getD_eq_headD_drop, drop_append_succ_length]
    exact ⟨headD_nul_iff post rest hpost0, c_str_append_nul post rest hpost0⟩
  · have hname : name = c_str bytes ++ 0 :: rest := hrest
    have hidx : strrchr name SLASH = none := by
      rw [hname]
      unfold strrchr
      exact strrchr_loop_absent SLASH _ rest 0 none h
    have hcut : cut_name name = (c_str bytes ++ 0 :: rest, 0) := by
      unfold cut_name
      rw [hidx]
      simp only
      rw [hname]
    rw [hcut, after_last_slash_absent _ h]
    simp only
    rw [getD_eq_headD_drop, List.drop_zero]
    exact ⟨headD_nul_iff _ rest hs, c_str_append_nul _ rest hs⟩

/-- Lines 69-76 of `dnet_srw_init`: the C string left in `base->name` is the
init path without its last `/`-component. -/
theorem base_name (init : List Nat) :
    c_str (dnet_srw_init_base init).name = without_last_component (c_str init) := by
  have hs : 0 ∉ c_str init := c_str_no_nul init
  unfold dnet_srw_init_base
  by_cases h : SLASH ∈ c_str init
  · obtain ⟨pre, post, hsplit, hpost⟩ := exists_last_split SLASH _ h
    have hpre0 : 0 ∉ pre := fun hh => hs (by rw [hsplit]; simp [hh])
    have hname : c_str init ++ [0] = pre ++ SLASH :: (post ++ 0 :: []) := by
      rw [hsplit]
      simp
    have hidx : strrchr (c_str init ++ [0]) SLASH = some pre.length := by
      rw [hname]
      unfold strrchr
      rw [strrchr_loop_last SLASH pre post [] 0 none hpre0 (by decide) hpost]
      simp
    simp only [hidx]
    rw [hname, set_append_length, c_str_append_nul pre _ hpre0, hsplit,
      without_last_component_split pre post hpost]
  · have hidx : strrchr (c_str init ++ [0]) SLASH = none := by
      unfold strrchr
      exact strrchr_loop_absent SLASH _ [] 0 none h
    simp only [hidx]
    rw [c_str_append_nul _ [] hs]
    unfold without_last_component
    rw [if_neg h]

theorem dnet_srw_init_priv (M : Int) (mok sok : Bool) (cfg : dnet_config_srw)
    (init : List Nat) (r : Int) (base : dnet_srw_init_conf)
    (hinit : cfg.init = some init)
    (h : dnet_srw_init M mok sok cfg = (r, some base)) :
    base = dnet_srw_init_base init := by
  unfold dnet_srw_init at h
  rw [hinit] at h
  simp only at h
  split at h
  · simp at h
  · split at h
    · simp at h
    · split at h
      · simp at h
      · simp at h
        exact h.2.symm

theorem read_bytes_zero (data : List Nat) (n : Nat) (h : n ≤ data.length) :
    read_bytes data 0 n = some (data.take n) := by
  simp [read_bytes, h]

/-- C9: in `dnet_cmd_exec_python_script`, with an srw context set up by
`dnet_srw_init` from the init path, the name and path allocations
succeeding and the payload holding `name_size` bytes: let `c` be the part
after the last `/` of the name (its first `name_size` payload bytes cut at
the first NUL).  If `c` is empty the call returns `-EINVAL` and opens no
file; otherwise the only path opened is the init path without its last
`/`-component, then `/`, then `c`; and `c` never contains a `/`. -/
theorem script_name_confinement (M : Int) (mok sok : Bool)
    (cfg : dnet_config_srw) (init : List Nat) (r : Int)
    (base : dnet_srw_init_conf) (env : sys_env) (e : dnet_exec)
    (hinit : cfg.init = some init)
    (hsrw : dnet_srw_init M mok sok cfg = (r, some base))
    (hname : env.malloc_name_ok = true)
    (hfull : env.malloc_full_path_ok = true)
    (hdata : e.name_size ≤ e.data.length) :
    (after_last_slash (script_name e) = [] →
      (dnet_cmd_exec_python_script env (some base) e).ret = .returned (-EINVAL) ∧
      (dnet_cmd_exec_python_script env (some base) e).opened = []) ∧
    (after_last_slash (script_name e) ≠ [] →
      (dnet_cmd_exec_python_script env (some base) e).opened =
        [without_last_component (c_str init) ++ [SLASH] ++
          after_last_slash (script_name e)]) ∧
    SLASH ∉ after_last_slash (script_name e) := by
  have hbase : base = dnet_srw_init_base init :=
    dnet_srw_init_priv M mok sok cfg init r base hinit hsrw
  obtain ⟨hnul, hptr⟩ := name_cut (e.data.take e.name_size)
  have hsn : script_name e = c_str (e.data.take e.name_size) := rfl
  rw [← hsn] at hnul hptr
  refine ⟨?_, ?_, after_last_slash_no_slash _⟩
  · intro hc
    have h0 := hnul.2 hc
    simp only [dnet_cmd_exec_python_script, hname, read_bytes_zero _ _ hdata,
      h0, Bool.true_eq_false, if_false, if_true, and_self]
  · intro hc
    have h0 : ¬ (cut_name (e.data.take e.name_size ++ [0])).1.getD
        (cut_name (e.data.take e.name_size ++ [0])).2 0 = 0 :=
      fun h => hc (hnul.1 h)
    simp only [dnet_cmd_exec_python_script, hname, hfull,
      read_bytes_zero _ _ hdata, h0, hptr, hbase, base_name]
    simp only [Bool.true_eq_false, if_false]
    split
    · rfl
    · split
      · rfl
      · split
        · rfl
        · split
          · rfl
          · split <;> rfl

theorem to_int_of_lt (x : Nat) (h : x < 2 ^ 31) : to_int x = (x : Int) := by
  unfold to_int
  have h1 : x % 2 ^ 32 = x := Nat.mod_eq_of_lt (by omega)
  rw [h1, if_pos h]

theorem to_size_t_of_nat (x : Nat) (h : x < 2 ^ 31) : to_size_t (x : Int) = x := by
  unfold to_size_t
  have h1 : ((x : Int) % 2 ^ 64) = (x : Int) :=
    Int.emod_eq_of_lt (by omega) (by omega)
  rw [h1]
  simp

theorem memcpy_fresh (A src : List Nat) (k off : Nat) (hoff : off = A.length)
    (hk : src.length ≤ k) :
    memcpy (A.map some ++ List.replicate k none) off src =
      some ((A ++ src).map some ++ List.replicate (k - src.length) none) := by
  subst hoff
  unfold memcpy
  have hlen : A.length + src.length ≤
      (A.map some ++ List.replicate k (none : Option Nat)).length := by
    simp
    omega
  rw [if_pos hlen]
  have htake : (A.map some ++ List.replicate k (none : Option Nat)).take A.length
      = A.map some := by
    rw [List.take_append_of_le_length (by simp)]
    simp
  have hdrop : (A.map some ++ List.replicate k (none : Option Nat)).drop
      (A.length + src.length) = List.replicate (k - src.length) none := by
    have : A.length + src.length = (A.map some).length + src.length := by simp
    rw [this, List.drop_append]
    simp
  rw [htake, hdrop]
  simp

theorem store_fresh (A : List Nat) (k off b : Nat) (hoff : off = A.length)
    (hk : 1 ≤ k) :
    store (A.map some ++ List.replicate k none) off b =
      some ((A ++ [b]).map some ++ List.replicate (k - 1) none) :=
  memcpy_fresh A [b] k off hoff hk

theorem script_text_length (e : dnet_exec) (file : List Nat)
    (hdata : e.name_size + e.script_size ≤ e.data.length) :
    (script_text e file).length =
      if e.script_size = 0 then file.length + 1
      else e.script_size + 1 + file.length + 1 := by
  unfold script_text
  by_cases hs : e.script_size = 0
  · simp [hs]
  · simp [hs]
    omega

/-- Lines 230-240 on a fresh buffer of `f + s + 3` bytes: no write leaves
the buffer, the written cells are a prefix holding `script_text`, and the
new `total` is the number of written cells. -/
theorem fill_script_fresh (e : dnet_exec) (file : List Nat)
    (hdata : e.name_size + e.script_size ≤ e.data.length)
    (hfit : file.length + e.script_size + 3 < 2 ^ 31) :
    fill_script e (List.replicate (file.length + e.script_size + 3) none) file =
      some ((script_text e file).map some ++
          List.replicate (file.length + e.script_size + 3 -
            (script_text e file).length) none,
        ((script_text e file).length : Int)) := by
  have hlen := script_text_length e file hdata
  unfold fill_script
  by_cases hs : e.script_size = 0
  · have h0 := memcpy_fresh [] file (file.length + e.script_size + 3) 0 rfl
      (by omega)
    simp only [List.map_nil, List.nil_append] at h0
    have h1 := store_fresh file
      (file.length + e.script_size + 3 - file.length) file.length 0 rfl
      (by omega)
    rw [if_neg (by simpa using hs)]
    simp only [h0, h1, Option.bind_eq_bind, Option.some_bind, Option.pure_def]
    rw [to_int_of_lt _ (by omega)]
    have ht : script_text e file = file ++ [0] := by simp [script_text, hs]
    rw [ht]
    simp
    omega
  · have hsrc : read_bytes e.data e.name_size e.script_size =
        some ((e.data.drop e.name_size).take e.script_size) := by
      simp [read_bytes, hdata]
    have hsl : ((e.data.drop e.name_size).take e.script_size).length =
        e.script_size := by
      simp
      omega
    generalize hsrcdef : (e.data.drop e.name_size).take e.script_size = src
      at hsrc hsl
    have h0 := memcpy_fresh [] src (file.length + e.script_size + 3) 0 rfl
      (by omega)
    simp only [List.map_nil, List.nil_append] at h0
    have h1 := store_fresh src (file.length + e.script_size + 3 - src.length)
      e.script_size 10 hsl.symm (by omega)
    have h2 := memcpy_fresh (src ++ [10]) file
      (file.length + e.script_size + 3 - src.length - 1) (e.script_size + 1)
      (by simp [hsl]) (by omega)
    have h3 := store_fresh (src ++ [10] ++ file)
      (file.length + e.script_size + 3 - src.length - 1 - file.length)
      (e.script_size + 1 + file.length) 0 (by simp [hsl]; omega) (by omega)
    rw [if_pos (by simpa using hs)]
    simp only [hsrc, h0, h1, h2, h3, Option.bind_eq_bind, Option.some_bind,
      Option.pure_def]
    rw [to_int_of_lt _ (by omega)]
    have ht : script_text e file = src ++ [10] ++ file ++ [0] := by
      simp [script_text, hs, hsrcdef]
    rw [ht]
    simp [hsl]
    omega

theorem countP_written (A : List Nat) (k : Nat) :
    (A.map some ++ List.replicate k (none : Option Nat)).countP Option.isSome =
      A.length := by
  induction A with
  | nil =>
    simp only [List.map_nil, List.nil_append, List.length_nil]
    induction k with
    | zero => rfl
    | succ k ih => simp [List.replicate_succ]
  | cons a t ih => simpa using ih

theorem written_index_lt (A : List Nat) (k i b : Nat)
    (h : (A.map some ++ List.replicate k (none : Option Nat))[i]? = some (some b)) :
    i < A.length := by
  by_contra hlt
  have hle : (A.map some).length ≤ i := by simpa using hlt
  rw [List.getElem?_append_right hle] at h
  rw [List.getElem?_replicate] at h
  split at h <;> simp at h

theorem getElem?_last_snoc (X : List Nat) (a : Nat) :
    (X ++ [a])[(X ++ [a]).length - 1]? = some a := by
  have h : (X ++ [a]).length - 1 = X.length := by simp
  rw [h, List.getElem?_append_right (le_refl _)]
  simp

theorem script_text_last (e : dnet_exec) (file : List Nat) :
    (script_text e file)[(script_text e file).length - 1]? = some 0 := by
  unfold script_text
  split
  · exact getElem?_last_snoc _ 0
  · exact getElem?_last_snoc _ 0

/-- C10: in `dnet_cmd_exec_python_script`, when the path is opened and
mapped and `f + s + 3` fits a signed 32-bit `int` (`f` the file size, `s`
the request `script_size`), the buffer `script` has `f + s + 3` cells, the
call does not end in an out-of-bounds access, every written cell has an
index below the length handed to `dnet_cmd_exec_python_raw` (and so below
the allocated size), that length is the number of written cells
(`s + 1 + f + 1` when `s > 0`, `f + 1` when `s = 0`), the written cells hold
the request script, a line feed, the file and a NUL (the file and a NUL when
`s = 0`), and the last written cell is NUL. -/
theorem script_buffer_bound (env : sys_env) (base : dnet_srw_init_conf)
    (e : dnet_exec) (file : List Nat)
    (hname : env.malloc_name_ok = true)
    (hfull : env.malloc_full_path_ok = true)
    (hscript : env.malloc_script_ok = true)
    (hdata : e.name_size + e.script_size ≤ e.data.length)
    (hc : after_last_slash (script_name e) ≠ [])
    (hopen : env.open_file (c_str base.name ++ [SLASH] ++
      after_last_slash (script_name e)) = .ok file)
    (hfstat : env.fstat_errno = none) (hmap : env.map_errno = none)
    (hfit : file.length + e.script_size + 3 < 2 ^ 31) :
    ∃ buf size,
      (dnet_cmd_exec_python_script env (some base) e).handed = some (buf, size) ∧
      (dnet_cmd_exec_python_script env (some base) e).ret =
        .returned (dnet_cmd_exec_python_raw env buf size
          (if e.binary_size ≠ 0 then some (e.name_size + e.script_size) else none)
          e.binary_size) ∧
      buf.length = file.length + e.script_size + 3 ∧
      size = (if e.script_size = 0 then file.length + 1
        else e.script_size + 1 + file.length + 1) ∧
      (∀ i b, buf[i]? = some (some b) →
        i < size ∧ i < file.length + e.script_size + 3) ∧
      buf.countP Option.isSome = size ∧
      buf.take size = (script_text e file).map some ∧
      buf[size - 1]? = some (some 0) := by
  obtain ⟨hnul, hptr⟩ := name_cut (e.data.take e.name_size)
  have hsn : script_name e = c_str (e.data.take e.name_size) := rfl
  rw [← hsn] at hnul hptr
  have h0 : ¬ (cut_name (e.data.take e.name_size ++ [0])).1.getD
      (cut_name (e.data.take e.name_size ++ [0])).2 0 = 0 :=
    fun h => hc (hnul.1 h)
  have hlen := script_text_length e file hdata
  have hsz : (script_text e file).length < 2 ^ 31 := by
    rw [hlen]
    split <;> omega
  have hle : (script_text e file).length ≤ file.length + e.script_size + 3 := by
    rw [hlen]
    split <;> omega
  have hfill := fill_script_fresh e file hdata hfit
  refine ⟨(script_text e file).map some ++
      List.replicate (file.length + e.script_size + 3 -
        (script_text e file).length) none,
    (script_text e file).length, ?_, ?_, ?_, hlen, ?_, ?_, ?_, ?_⟩
  · simp only [dnet_cmd_exec_python_script, hname, hfull, hscript,
      read_bytes_zero _ _ (show e.name_size ≤ e.data.length by omega), h0,
      hptr, hopen, hfstat, hmap, Bool.true_eq_false, if_false,
      to_int_of_lt _ hfit, to_size_t_of_nat _ hfit, hfill,
      to_size_t_of_nat _ hsz]
  · simp only [dnet_cmd_exec_python_script, hname, hfull, hscript,
      read_bytes_zero _ _ (show e.name_size ≤ e.data.length by omega), h0,
      hptr, hopen, hfstat, hmap, Bool.true_eq_false, if_false,
      to_int_of_lt _ hfit, to_size_t_of_nat _ hfit, hfill,
      to_size_t_of_nat _ hsz]
  · simp
    omega
  · intro i b hi
    have := written_index_lt _ _ i b hi
    omega
  · exact countP_written _ _
  · rw [List.take_append_of_le_length (by simp)]
    simp
  · have hpos : 0 < (script_text e file).length := by
      rw [hlen]
      split <;> omega
    rw [List.getElem?_append_left (by simp; omega)]
    rw [List.getElem?_map, script_text_last]
    rfl

/-- On every path `dnet_cmd_exec_python_script` calls `open` at most once,
and it hands a buffer to `dnet_cmd_exec_python_raw` only after that one
`open`, without any out-of-bounds access before the call. -/
theorem script_open_once (env : sys_env) (srw : Option dnet_srw_init_conf)
    (e : dnet_exec) :
    (dnet_cmd_exec_python_script env srw e).opened.length ≤ 1 ∧
    ((dnet_cmd_exec_python_script env srw e).handed ≠ none →
      (dnet_cmd_exec_python_script env srw e).opened.length = 1 ∧
      (dnet_cmd_exec_python_script env srw e).ret ≠ .undefined) := by
  unfold dnet_cmd_exec_python_script
  split
  · simp
  · simp only
    split
    · simp
    · split
      · simp
      · split
        · simp
        · split
          · simp
          · split
            · simp
            · split
              · simp
              · split
                · simp
                · split
                  · simp
                  · split
                    · simp
                    · simp

theorem script_name_confinement_witness :
    after_last_slash (script_name demo_exec) = [120] ∧
    (dnet_cmd_exec_python_script demo_env
      (some (dnet_srw_init_base demo_init)) demo_exec).opened =
        [[47, 115, 47, 120]] :=
  ⟨by decide,
    (script_name_confinement 1 true true demo_cfg demo_init 0
      (dnet_srw_init_base demo_init) demo_env demo_exec rfl (by decide) rfl rfl
      (by decide)).2.1 (by decide)⟩

theorem script_buffer_bound_witness :
    ∃ buf size,
      (dnet_cmd_exec_python_script demo_env
        (some (dnet_srw_init_base demo_init)) demo_exec).handed = some (buf, size) ∧
      (dnet_cmd_exec_python_script demo_env
        (some (dnet_srw_init_base demo_init)) demo_exec).ret =
        .returned (dnet_cmd_exec_python_raw demo_env buf size
          (if demo_exec.binary_size ≠ 0 then
            some (demo_exec.name_size + demo_exec.script_size) else none)
          demo_exec.binary_size) ∧
      buf.length = [7, 8].length + demo_exec.script_size + 3 ∧
      size = (if demo_exec.script_size = 0 then [7, 8].length + 1
        else demo_exec.script_size + 1 + [7, 8].length + 1) ∧
      (∀ i b, buf[i]? = some (some b) →
        i < size ∧ i < [7, 8].length + demo_exec.script_size + 3) ∧
      buf.countP Option.isSome = size ∧
      buf.take size = (script_text demo_exec [7, 8]).map some ∧
      buf[size - 1]? = some (some 0) :=
  script_buffer_bound demo_env (dnet_srw_init_base demo_init) demo_exec [7, 8]
    rfl rfl rfl (by decide) (by decide) rfl rfl rfl (by decide)

end srw

namespace slru_spec

variable {σ : Type}

/-! ### Pages and their entries -/

theorem page_set_page (c : Cache σ) (p q : Nat) (l : List Entry) :
    page (set_page c p l) q =
      if q = p ∧ p < c.pages.length then l else page c q := by
  unfold page set_page
  simp only [List.getD_eq_getElem?_getD, List.getElem?_set]
  by_cases hqp : q = p
  · subst hqp
    by_cases hlt : q < c.pages.length
    · simp [hlt]
    · have : c.pages[q]? = none := List.getElem?_eq_none (by omega)
      simp [hlt, this]
  · have : ¬ p = q := fun h => hqp h.symm
    simp [hqp, this]

theorem page_set_page_same (c : Cache σ) (p : Nat) (l : List Entry)
    (h : p < c.pages.length) : page (set_page c p l) p = l := by
  rw [page_set_page]
  simp [h]

theorem page_set_page_ne (c : Cache σ) (p q : Nat) (l : List Entry)
    (h : q ≠ p) : page (set_page c p l) q = page c q := by
  rw [page_set_page]
  simp [h]

theorem page_eq_nil_of_le (c : Cache σ) (p : Nat) (h : c.pages.length ≤ p) :
    page c p = [] := by
  unfold page
  rw [List.getD_eq_getElem?_getD, List.getElem?_eq_none h]
  rfl

theorem flatten_set_add {α : Type} (L : List (List α)) (p : Nat) (l : List α)
    (h : p < L.length) :
    ((L.set p l).flatten : Multiset α) + (L.getD p [] : List α) =
      (L.flatten : Multiset α) + (l : List α) := by
  induction L generalizing p with
  | nil => simp at h
  | cons a t ih =>
    cases p with
    | zero =>
      simp only [List.set_cons_zero, List.flatten_cons, List.getD_cons_zero,
        ← Multiset.coe_add]
      abel
    | succ p =>
      have hp : p < t.length := by simpa using h
      simp only [List.set_cons_succ, List.flatten_cons, List.getD_cons_succ,
        ← Multiset.coe_add]
      rw [add_assoc, ih p hp, add_assoc]

theorem entries_set_page (c : Cache σ) (p : Nat) (l : List Entry)
    (h : p < c.pages.length) :
    (entries (set_page c p l) : Multiset Entry) + (page c p : List Entry) =
      (entries c : Multiset Entry) + (l : List Entry) :=
  flatten_set_add c.pages p l h

theorem set_page_of_le (c : Cache σ) (p : Nat) (l : List Entry)
    (h : c.pages.length ≤ p) : set_page c p l = c := by
  unfold set_page
  rw [List.set_eq_of_length_le h]

theorem mem_entries_of_mem_page (c : Cache σ) (p : Nat) (e : Entry)
    (h : e ∈ page c p) : e ∈ entries c := by
  unfold page at h
  unfold entries
  rw [List.getD_eq_getElem?_getD] at h
  rw [List.mem_flatten]
  cases hp : c.pages[p]? with
  | none => simp [hp] at h
  | some l =>
    simp only [hp, Option.getD_some] at h
    exact ⟨l, List.getElem?_mem hp, h⟩

/-! ### Frames -/

theorem same_frame_refl (c : Cache σ) : same_frame c c :=
  ⟨rfl, rfl, rfl, rfl⟩

theorem same_frame_trans {c1 c2 c3 : Cache σ} (h12 : same_frame c1 c2)
    (h23 : same_frame c2 c3) : same_frame c1 c3 :=
  ⟨h23.1.trans h12.1, h23.2.1.trans h12.2.1, h23.2.2.1.trans h12.2.2.1,
    h23.2.2.2.trans h12.2.2.2⟩

theorem same_from_refl (level : Nat) (c : Cache σ) : same_from level c c :=
  ⟨same_frame_refl c, fun _ _ => rfl⟩

theorem same_from_trans {level : Nat} {c1 c2 c3 : Cache σ}
    (h12 : same_from level c1 c2) (h23 : same_from level c2 c3) :
    same_from level c1 c3 :=
  ⟨same_frame_trans h12.1 h23.1, fun q hq => (h23.2 q hq).trans (h12.2 q hq)⟩

theorem same_from_mono {l1 l2 : Nat} {c c' : Cache σ} (h : l1 ≤ l2)
    (hc : same_from l1 c c') : same_from l2 c c' :=
  ⟨hc.1, fun q hq => hc.2 q (le_trans h hq)⟩

theorem same_frame_set_page (c : Cache σ) (p : Nat) (l : List Entry) :
    same_frame c (set_page c p l) :=
  ⟨rfl, rfl, rfl, by simp [set_page]⟩

theorem same_from_set_page (c : Cache σ) (p : Nat) (l : List Entry) :
    same_from (p + 1) c (set_page c p l) :=
  ⟨same_frame_set_page c p l, fun q hq => page_set_page_ne c p q l (by omega)⟩

theorem same_from_evict (B : Backend σ) (e : Entry) (c : Cache σ) :
    same_from 0 c (evict B e c) :=
  ⟨⟨rfl, rfl, rfl, rfl⟩, fun _ _ => rfl⟩

theorem entries_evict (B : Backend σ) (e : Entry) (c : Cache σ) :
    entries (evict B e c) = entries c := rfl

theorem entry_size_frame {c c' : Cache σ} (h : same_frame c c') (e : Entry) :
    entry_size c' e = entry_size c e := by
  unfold entry_size
  rw [h.2.1]

theorem max_size_frame {c c' : Cache σ} (h : same_frame c c') (p : Nat) :
    max_size c' p = max_size c p := by
  unfold max_size
  rw [h.1]

/-! ### Entries kept by the page moves -/

theorem entries_push_front_le (c : Cache σ) (p : Nat) (e : Entry) :
    (entries (push_front c p e) : Multiset Entry) ≤ e ::ₘ (entries c : Multiset Entry) := by
  unfold push_front
  by_cases h : p < c.pages.length
  · have := entries_set_page c p (e :: page c p) h
    have h2 : ((e :: page c p : List Entry) : Multiset Entry) =
        e ::ₘ ((page c p : List Entry) : Multiset Entry) := rfl
    rw [h2, Multiset.add_cons, ← Multiset.cons_add] at this
    rw [add_left_inj] at this
    rw [this]
  · rw [set_page_of_le c p _ (by omega)]
    exact Multiset.le_cons_self _ _

theorem entries_pop_back (c : Cache σ) (p : Nat) (e : Entry)
    (h : (page c p).getLast? = some e) :
    e ::ₘ (entries (pop_back c p) : Multiset Entry) = (entries c : Multiset Entry) := by
  have hp : p < c.pages.length := by
    by_contra hlt
    rw [page_eq_nil_of_le c p (by omega)] at h
    simp at h
  unfold pop_back
  have := entries_set_page c p (page c p).dropLast hp
  have hsplit : (page c p).dropLast ++ [e] = page c p :=
    List.dropLast_append_getLast? e h
  have h2 : ((page c p : List Entry) : Multiset Entry) =
      e ::ₘ (((page c p).dropLast : List Entry) : Multiset Entry) := by
    conv_lhs => rw [← hsplit]
    rw [← Multiset.coe_add, Multiset.coe_singleton, add_comm,
      Multiset.singleton_add]
  rw [h2, Multiset.add_cons, ← Multiset.cons_add] at this
  exact add_right_cancel this

theorem entries_remove_le (c : Cache σ) (p : Nat) (k : Key) :
    (entries (remove_data_from_page c p k) : Multiset Entry) ≤
      (entries c : Multiset Entry) := by
  unfold remove_data_from_page
  by_cases h : p < c.pages.length
  · have := entries_set_page c p
      ((page c p).filter (fun e => decide (e.key ≠ k))) h
    have hle : (((page c p).filter (fun e => decide (e.key ≠ k)) : List Entry) :
        Multiset Entry) ≤ ((page c p : List Entry) : Multiset Entry) :=
      Multiset.coe_le.2 (List.filter_sublist _).subperm
    have h3 : (entries (set_page c p ((page c p).filter
        (fun e => decide (e.key ≠ k)))) : Multiset Entry) + (page c p : List Entry) ≤
        (entries c : Multiset Entry) + (page c p : List Entry) := by
      rw [this]
      exact add_le_add_left hle _
    exact le_of_add_le_add_right h3
  · rw [set_page_of_le c p _ (by omega)]

/-! ### What `resize_page` keeps -/

theorem resize_loop_rel (step : Entry → Cache σ → Option (Cache σ)) (L need : Nat)
    (hstep : ∀ e c c1, step e c = some c1 → same_from L c c1 ∧
      (entries c1 : Multiset Entry) ≤ e ::ₘ (entries c : Multiset Entry)) :
    ∀ n c c', resize_loop step L need n c = some c' →
      same_from (L + 1) c c' ∧
        (entries c' : Multiset Entry) ≤ (entries c : Multiset Entry) ∧
        current_size c' L + need ≤ max_size c' L := by
  intro n
  induction n with
  | zero =>
    intro c c' h
    unfold resize_loop at h
    split at h
    · exact absurd h (by simp)
    · rename_i hcond
      cases h
      exact ⟨same_from_refl _ c, le_refl _, by omega⟩
  | succ n ih =>
    intro c c' h
    unfold resize_loop at h
    split at h
    · split at h
      · exact absurd h (by simp)
      · rename_i e he
        obtain ⟨c2, hc2, hrest⟩ := Option.bind_eq_some.1 h
        have h1 : same_from (L + 1) c (pop_back c L) := same_from_set_page c L _
        have h2 := hstep e (pop_back c L) c2 hc2
        have h3 := ih c2 c' hrest
        refine ⟨same_from_trans h1
          (same_from_trans (same_from_mono (Nat.le_succ L) h2.1) h3.1), ?_, h3.2.2⟩
        calc (entries c' : Multiset Entry)
            ≤ (entries c2 : Multiset Entry) := h3.2.1
          _ ≤ e ::ₘ (entries (pop_back c L) : Multiset Entry) := h2.2
          _ = (entries c : Multiset Entry) := entries_pop_back c L e he
    · rename_i hcond
      cases h
      exact ⟨same_from_refl _ c, le_refl _, by omega⟩

/-- An insertion that completes has made room if the page was short of it,
and then put the entry at the front of the page. -/
theorem insert_with_some (resize : Nat → Cache σ → Option (Cache σ)) (p : Nat)
    (e : Entry) (c c1 : Cache σ) (h : insert_with resize p e c = some c1) :
    ∃ c2, c1 = push_front c2 p e ∧
      ((current_size c p + entry_size c e > max_size c p ∧
          resize (entry_size c e) c = some c2) ∨
        (current_size c p + entry_size c e ≤ max_size c p ∧ c2 = c)) := by
  unfold insert_with at h
  obtain ⟨c2, hc2, hpush⟩ := Option.map_eq_some'.1 h
  refine ⟨c2, hpush.symm, ?_⟩
  split at hc2
  · rename_i hcond
    exact Or.inl ⟨hcond, hc2⟩
  · rename_i hcond
    cases hc2
    exact Or.inr ⟨by omega, rfl⟩

theorem insert_with_rel (resize : Nat → Cache σ → Option (Cache σ)) (L : Nat)
    (hres : ∀ need c c', resize need c = some c' → same_from (L + 1) c c' ∧
      (entries c' : Multiset Entry) ≤ (entries c : Multiset Entry))
    (e : Entry) (c c1 : Cache σ) (h : insert_with resize L e c = some c1) :
    same_from (L + 1) c c1 ∧
      (entries c1 : Multiset Entry) ≤ e ::ₘ (entries c : Multiset Entry) := by
  obtain ⟨c2, rfl, hc2 | hc2⟩ := insert_with_some resize L e c c1 h
  · have h1 := hres (entry_size c e) c c2 hc2.2
    refine ⟨same_from_trans h1.1 (same_from_set_page _ L _), ?_⟩
    exact le_trans (entries_push_front_le _ L e) (Multiset.cons_le_cons e h1.2)
  · rw [hc2.2]
    exact ⟨same_from_set_page c L _, entries_push_front_le c L e⟩

theorem resize_page_rel (B : Backend σ) :
    ∀ L need c c', resize_page B L need c = some c' →
      same_from (L + 1) c c' ∧
        (entries c' : Multiset Entry) ≤ (entries c : Multiset Entry) ∧
        current_size c' L + need ≤ max_size c' L := by
  intro L
  induction L with
  | zero =>
    intro need c c' h
    unfold resize_page at h
    refine resize_loop_rel _ 0 need ?_ _ c c' h
    intro e c1 c2 h2
    cases h2
    exact ⟨same_from_evict B e c1, by
      rw [entries_evict]
      exact Multiset.le_cons_self _ _⟩
  | succ L ih =>
    intro need c c' h
    unfold resize_page at h
    refine resize_loop_rel _ (L + 1) need ?_ _ c c' h
    intro e c1 c2 h2
    exact insert_with_rel (resize_page B L) L
      (fun need c c' h => ⟨(ih need c c' h).1, (ih need c c' h).2.1⟩) e c1 c2 h2

theorem resize_page_rel2 (B : Backend σ) (L need : Nat) (c c' : Cache σ)
    (h : resize_page B L need c = some c') :
    same_from (L + 1) c c' ∧
      (entries c' : Multiset Entry) ≤ (entries c : Multiset Entry) :=
  ⟨(resize_page_rel B L need c c' h).1, (resize_page_rel B L need c c' h).2.1⟩

/-- The rounds counted in `resize_loop` never run out before the page is
empty: from the length of the page on, more rounds change nothing. -/
theorem resize_loop_fuel (step : Entry → Cache σ → Option (Cache σ)) (L need : Nat)
    (hstep : ∀ e c c1, step e c = some c1 → same_from L c c1) :
    ∀ n c, (page c L).length ≤ n →
      resize_loop step L need (n + 1) c = resize_loop step L need n c := by
  intro n
  induction n with
  | zero =>
    intro c hlen
    have hnil : page c L = [] := List.length_eq_zero.1 (Nat.le_zero.1 hlen)
    unfold resize_loop
    split
    · rw [hnil]
      rfl
    · rfl
  | succ n ih =>
    intro c hlen
    unfold resize_loop
    split
    · split
      · rfl
      · rename_i e he
        have hL : L < c.pages.length := by
          by_contra hlt
          rw [page_eq_nil_of_le c L (by omega)] at he
          simp at he
        cases hc1 : step e (pop_back c L) with
        | none => rfl
        | some c1 =>
          show resize_loop step L need (n + 1) c1 = resize_loop step L need n c1
          apply ih
          rw [(hstep e _ c1 hc1).2 L (le_refl L)]
          unfold pop_back
          rw [page_set_page_same c L _ hL, List.length_dropLast]
          omega
    · rfl

theorem resize_loop_fuel_le (step : Entry → Cache σ → Option (Cache σ))
    (L need : Nat)
    (hstep : ∀ e c c1, step e c = some c1 → same_from L c c1) (c : Cache σ)
    (n : Nat) (hlen : (page c L).length ≤ n) :
    ∀ m, n ≤ m → resize_loop step L need m c = resize_loop step L need n c := by
  intro m hm
  induction m with
  | zero =>
    have : n = 0 := by omega
    rw [this]
  | succ m ih =>
    by_cases h : n = m + 1
    · rw [h]
    · rw [resize_loop_fuel step L need hstep m c (by omega)]
      exact ih (by omega)

/-- The result of `resize_page` does not depend on the count of rounds: any
count from the length of the page on gives the same. -/
theorem resize_page_rounds (B : Backend σ) (need m : Nat) (c : Cache σ) :
    ((page c 0).length ≤ m →
      resize_loop (fun e c1 => some (evict B e c1)) 0 need m c =
        resize_page B 0 need c) ∧
    (∀ level, (page c (level + 1)).length ≤ m →
      resize_loop (insert_with (resize_page B level) level) (level + 1) need m c =
        resize_page B (level + 1) need c) := by
  refine ⟨?_, ?_⟩
  · intro hm
    conv_rhs => unfold resize_page
    refine resize_loop_fuel_le _ 0 need ?_ c _ (le_refl _) m hm
    intro e c1 c2 h
    cases h
    exact same_from_evict B e c1
  · intro level hm
    conv_rhs => unfold resize_page
    refine resize_loop_fuel_le _ (level + 1) need ?_ c _ (le_refl _) m hm
    intro e c1 c2 h
    exact (insert_with_rel (resize_page B level) level (resize_page_rel2 B level)
      e c1 c2 h).1

/-! ### Budgets kept by `resize_page` -/

theorem mem_of_entries_le {c c' : Cache σ}
    (h : (entries c' : Multiset Entry) ≤ (entries c : Multiset Entry))
    (x : Entry) (hx : x ∈ entries c') : x ∈ entries c :=
  Multiset.mem_coe.1 (Multiset.mem_of_le h (Multiset.mem_coe.2 hx))

theorem fits_frame {c c' : Cache σ} (hf : same_frame c c') (e : Entry)
    (h : fits c e) : fits c' e := by
  intro m hm
  rw [entry_size_frame hf]
  exact h m (hf.1 ▸ hm)

theorem fits_every_page_of_subset {c c' : Cache σ} (hf : same_frame c c')
    (hsub : ∀ x ∈ entries c', x ∈ entries c) (h : fits_every_page c) :
    fits_every_page c' := by
  intro e he
  exact fits_frame hf e (h e (hsub e he))

theorem max_size_mem (c : Cache σ) (p : Nat) (hp : p < c.page_max.length) :
    max_size c p ∈ c.page_max := by
  unfold max_size
  rw [List.getD_eq_getElem?_getD, List.getElem?_eq_getElem hp]
  exact List.getElem_mem hp

theorem current_size_set_page_same (c : Cache σ) (p : Nat) (l : List Entry)
    (hp : p < c.pages.length) :
    current_size (set_page c p l) p = (l.map (entry_size c)).sum := by
  unfold current_size
  rw [page_set_page_same c p l hp]
  rfl

theorem current_size_set_page_ne (c : Cache σ) (p q : Nat) (l : List Entry)
    (h : q ≠ p) : current_size (set_page c p l) q = current_size c q := by
  unfold current_size
  rw [page_set_page_ne c p q l h]
  rfl

theorem within_budget_set_page (c : Cache σ) (p : Nat) (l : List Entry)
    (hwb : within_budget c)
    (hroom : (l.map (entry_size c)).sum ≤ max_size c p) :
    within_budget (set_page c p l) := by
  refine ⟨by simpa [set_page] using hwb.1, ?_⟩
  intro q hq
  by_cases hqp : q = p
  · subst hqp
    have hlt : q < c.pages.length := by
      rw [hwb.1]
      exact hq
    rw [current_size_set_page_same c q l hlt]
    exact hroom
  · rw [current_size_set_page_ne c p q l hqp]
    exact hwb.2 q hq

theorem sublist_size_le (c : Cache σ) (p : Nat) (l : List Entry)
    (hwb : within_budget c) (hl : l.Sublist (page c p)) :
    (l.map (entry_size c)).sum ≤ max_size c p := by
  by_cases hp : p < c.page_max.length
  · exact le_trans (List.Sublist.sum_le_sum (hl.map _) (fun _ _ => Nat.zero_le _))
      (hwb.2 p hp)
  · have hnil : page c p = [] := page_eq_nil_of_le c p (by rw [hwb.1]; omega)
    rw [hnil] at hl
    rw [List.sublist_nil.1 hl]
    simp

theorem within_budget_pop_back (c : Cache σ) (p : Nat) (hwb : within_budget c) :
    within_budget (pop_back c p) :=
  within_budget_set_page c p _ hwb
    (sublist_size_le c p _ hwb (List.dropLast_sublist _))

theorem within_budget_remove (c : Cache σ) (p : Nat) (k : Key)
    (hwb : within_budget c) : within_budget (remove_data_from_page c p k) :=
  within_budget_set_page c p _ hwb
    (sublist_size_le c p _ hwb (List.filter_sublist _))

theorem within_budget_push_front (c : Cache σ) (p : Nat) (e : Entry)
    (hwb : within_budget c)
    (hroom : current_size c p + entry_size c e ≤ max_size c p) :
    within_budget (push_front c p e) := by
  apply within_budget_set_page c p _ hwb
  simp only [List.map_cons, List.sum_cons]
  unfold current_size at hroom
  omega

theorem within_budget_evict (B : Backend σ) (e : Entry) (c : Cache σ)
    (hwb : within_budget c) : within_budget (evict B e c) :=
  hwb

theorem resize_loop_budget (step : Entry → Cache σ → Option (Cache σ))
    (L need : Nat)
    (hstep : ∀ e c c1, step e c = some c1 → within_budget c → within_budget c1) :
    ∀ n c c', resize_loop step L need n c = some c' → within_budget c →
      within_budget c' := by
  intro n
  induction n with
  | zero =>
    intro c c' h hwb
    unfold resize_loop at h
    split at h
    · exact absurd h (by simp)
    · cases h
      exact hwb
  | succ n ih =>
    intro c c' h hwb
    unfold resize_loop at h
    split at h
    · split at h
      · exact absurd h (by simp)
      · rename_i e he
        obtain ⟨c2, hc2, hrest⟩ := Option.bind_eq_some.1 h
        exact ih c2 c' hrest
          (hstep e (pop_back c L) c2 hc2 (within_budget_pop_back c L hwb))
    · cases h
      exact hwb

/-- An insertion that completes keeps the budgets: the entry goes into a
page that has room for it. -/
theorem insert_with_budget (resize : Nat → Cache σ → Option (Cache σ)) (p : Nat)
    (hres : ∀ need c c', resize need c = some c' →
      same_frame c c' ∧ (within_budget c → within_budget c') ∧
        current_size c' p + need ≤ max_size c' p)
    (e : Entry) (c c1 : Cache σ) (h : insert_with resize p e c = some c1)
    (hwb : within_budget c) : within_budget c1 := by
  obtain ⟨c2, rfl, hc2 | hc2⟩ := insert_with_some resize p e c c1 h
  · have h1 := hres (entry_size c e) c c2 hc2.2
    apply within_budget_push_front _ p e (h1.2.1 hwb)
    rw [entry_size_frame h1.1]
    exact h1.2.2
  · rw [hc2.2]
    exact within_budget_push_front c p e hwb hc2.1

theorem resize_page_budget (B : Backend σ) :
    ∀ L need c c', resize_page B L need c = some c' → within_budget c →
      within_budget c' := by
  intro L
  induction L with
  | zero =>
    intro need c c' h hwb
    unfold resize_page at h
    refine resize_loop_budget _ 0 need ?_ _ c c' h hwb
    intro e c1 c2 h2 hwb1
    cases h2
    exact within_budget_evict B e c1 hwb1
  | succ L ih =>
    intro need c c' h hwb
    unfold resize_page at h
    refine resize_loop_budget _ (L + 1) need ?_ _ c c' h hwb
    intro e c1 c2 h2 hwb1
    refine insert_with_budget (resize_page B L) L ?_ e c1 c2 h2 hwb1
    intro need1 c3 c4 h4
    have hr := resize_page_rel B L need1 c3 c4 h4
    exact ⟨hr.1.1, ih need1 c3 c4 h4, hr.2.2⟩

theorem insert_data_into_page_budget (B : Backend σ) (p : Nat) (e : Entry)
    (c c1 : Cache σ) (h : insert_data_into_page B p e c = some c1)
    (hwb : within_budget c) : within_budget c1 := by
  refine insert_with_budget (resize_page B p) p ?_ e c c1 h hwb
  intro need1 c3 c4 h4
  have hr := resize_page_rel B p need1 c3 c4 h4
  exact ⟨hr.1.1, resize_page_budget B p need1 c3 c4 h4, hr.2.2⟩

/-! ### When `resize_page` completes -/

theorem current_size_nil (c : Cache σ) (p : Nat) (h : page c p = []) :
    current_size c p = 0 := by
  unfold current_size
  rw [h]
  rfl

/-- The loop completes when the room asked for is within the budget of the
page and every entry it may have to move fits every page. -/
theorem resize_loop_progress (step : Entry → Cache σ → Option (Cache σ))
    (L need : Nat)
    (hrel : ∀ e c c1, step e c = some c1 → same_from L c c1 ∧
      (entries c1 : Multiset Entry) ≤ e ::ₘ (entries c : Multiset Entry))
    (hbud : ∀ e c c1, step e c = some c1 → within_budget c → within_budget c1)
    (hprog : ∀ e c, within_budget c → fits_every_page c → fits c e →
      L < c.page_max.length → ∃ c1, step e c = some c1) :
    ∀ n c, within_budget c → fits_every_page c → L < c.page_max.length →
      need ≤ max_size c L → (page c L).length ≤ n →
      ∃ c', resize_loop step L need n c = some c' := by
  intro n
  induction n with
  | zero =>
    intro c _ _ _ hneed hlen
    have hnil : page c L = [] := List.length_eq_zero.1 (Nat.le_zero.1 hlen)
    have h0 := current_size_nil c L hnil
    unfold resize_loop
    rw [if_neg (by omega)]
    exact ⟨c, rfl⟩
  | succ n ih =>
    intro c hwb hfit hL hneed hlen
    unfold resize_loop
    split
    · rename_i hcond
      split
      · rename_i hnone
        have hnil : page c L = [] := List.getLast?_eq_none_iff.1 hnone
        have h0 := current_size_nil c L hnil
        omega
      · rename_i e he
        have hent := entries_pop_back c L e he
        have hf1 : same_frame c (pop_back c L) := same_frame_set_page c L _
        have hmem : e ∈ entries c :=
          mem_entries_of_mem_page c L e (List.mem_of_getLast?_eq_some he)
        have hsub1 : ∀ x ∈ entries (pop_back c L), x ∈ entries c := by
          intro x hx
          have : x ∈ (e ::ₘ (entries (pop_back c L) : Multiset Entry)) :=
            Multiset.mem_cons_of_mem (Multiset.mem_coe.2 hx)
          rw [hent] at this
          exact Multiset.mem_coe.1 this
        have hwb1 := within_budget_pop_back c L hwb
        have hfit1 := fits_every_page_of_subset hf1 hsub1 hfit
        have hfe : fits (pop_back c L) e := fits_frame hf1 e (hfit e hmem)
        have hL1 : L < (pop_back c L).page_max.length := hL
        obtain ⟨c2, hc2⟩ := hprog e (pop_back c L) hwb1 hfit1 hfe hL1
        have hr := hrel e (pop_back c L) c2 hc2
        have hwb2 := hbud e (pop_back c L) c2 hc2 hwb1
        have hf2 : same_frame c c2 := same_frame_trans hf1 hr.1.1
        have hsub2 : ∀ x ∈ entries c2, x ∈ entries c := by
          intro x hx
          have : x ∈ (e ::ₘ (entries (pop_back c L) : Multiset Entry)) :=
            Multiset.mem_of_le hr.2 (Multiset.mem_coe.2 hx)
          rw [hent] at this
          exact Multiset.mem_coe.1 this
        have hfit2 := fits_every_page_of_subset hf2 hsub2 hfit
        have hL2 : L < c2.page_max.length := by
          rw [hf2.1]
          exact hL
        have hmax2 : max_size c2 L = max_size c L := max_size_frame hf2 L
        have hpage2 : page c2 L = (page c L).dropLast := by
          rw [hr.1.2 L (le_refl L)]
          exact page_set_page_same c L _ (by rw [hwb.1]; exact hL)
        have hlen2 : (page c2 L).length ≤ n := by
          rw [hpage2, List.length_dropLast]
          omega
        obtain ⟨c3, hc3⟩ := ih c2 hwb2 hfit2 hL2 (by rw [hmax2]; exact hneed) hlen2
        exact ⟨c3, by rw [hc2]; exact hc3⟩
    · exact ⟨c, rfl⟩

theorem insert_with_progress (resize : Nat → Cache σ → Option (Cache σ)) (p : Nat)
    (hres : ∀ need c, within_budget c → fits_every_page c →
      p < c.page_max.length → need ≤ max_size c p → ∃ c', resize need c = some c')
    (e : Entry) (c : Cache σ) (hwb : within_budget c)
    (hfit : fits_every_page c) (hfe : fits c e) (hp : p < c.page_max.length) :
    ∃ c1, insert_with resize p e c = some c1 := by
  unfold insert_with
  split
  · have hneed : entry_size c e ≤ max_size c p := hfe _ (max_size_mem c p hp)
    obtain ⟨c2, hc2⟩ := hres (entry_size c e) c hwb hfit hp hneed
    exact ⟨push_front c2 p e, by rw [hc2]; rfl⟩
  · exact ⟨push_front c p e, rfl⟩

theorem resize_page_progress (B : Backend σ) :
    ∀ L need c, within_budget c → fits_every_page c →
      L < c.page_max.length → need ≤ max_size c L →
      ∃ c', resize_page B L need c = some c' := by
  intro L
  induction L with
  | zero =>
    intro need c hwb hfit hL hneed
    unfold resize_page
    refine resize_loop_progress _ 0 need ?_ ?_ ?_ _ c hwb hfit hL hneed (le_refl _)
    · intro e c1 c2 h2
      cases h2
      exact ⟨same_from_evict B e c1, by
        rw [entries_evict]
        exact Multiset.le_cons_self _ _⟩
    · intro e c1 c2 h2 hwb1
      cases h2
      exact within_budget_evict B e c1 hwb1
    · intro e c1 _ _ _ _
      exact ⟨_, rfl⟩
  | succ L ih =>
    intro need c hwb hfit hL hneed
    unfold resize_page
    refine resize_loop_progress _ (L + 1) need ?_ ?_ ?_ _ c hwb hfit hL hneed
      (le_refl _)
    · intro e c1 c2 h2
      exact insert_with_rel (resize_page B L) L (resize_page_rel2 B L) e c1 c2 h2
    · intro e c1 c2 h2 hwb1
      exact insert_data_into_page_budget B L e c1 c2 h2 hwb1
    · intro e c1 hwb1 hfit1 hfe1 hL1
      exact insert_with_progress (resize_page B L) L ih e c1 hwb1 hfit1 hfe1
        (by omega)

theorem insert_data_into_page_progress (B : Backend σ) (p : Nat) (e : Entry)
    (c : Cache σ) (hwb : within_budget c) (hfit : fits_every_page c)
    (hfe : fits c e) (hp : p < c.page_max.length) :
    ∃ c1, insert_data_into_page B p e c = some c1 :=
  insert_with_progress (resize_page B p) p (resize_page_progress B p) e c hwb hfit
    hfe hp

/-! ### Lookup -/

theorem find_from_some (pages : List (List Entry)) (i : Nat) (k : Key)
    (lvl : Nat) (e : Entry) (h : find_from pages i k = some (lvl, e)) :
    ∃ p, lvl = i + p ∧ p < pages.length ∧ e ∈ pages.getD p [] ∧ e.key = k := by
  induction pages generalizing i with
  | nil => simp [find_from] at h
  | cons pg rest ih =>
    unfold find_from at h
    split at h
    · rename_i x hx
      have hxe : x = e := by
        have := Option.some.inj h
        exact (Prod.mk.inj this).2
      have hi : i = lvl := by
        have := Option.some.inj h
        exact (Prod.mk.inj this).1
      subst hxe
      refine ⟨0, by omega, by simp, ?_, ?_⟩
      · simpa using List.mem_of_find?_eq_some hx
      · simpa using List.find?_some hx
    · obtain ⟨p, hp1, hp2, hp3, hp4⟩ := ih (i + 1) h
      exact ⟨p + 1, by omega, by simpa using hp2, by simpa using hp3, hp4⟩

theorem find_some (c : Cache σ) (k : Key) (lvl : Nat) (e : Entry)
    (h : find c k = some (lvl, e)) :
    lvl < c.pages.length ∧ e ∈ page c lvl ∧ e.key = k := by
  obtain ⟨p, hp1, hp2, hp3, hp4⟩ := find_from_some c.pages 0 k lvl e h
  have : lvl = p := by omega
  subst this
  exact ⟨hp2, hp3, hp4⟩

theorem read_sync_payload (B : Backend σ) (store : σ) (e : Entry) :
    (read_sync B store e).2.payload = e.payload := by
  unfold read_sync
  split <;> rfl

theorem same_frame_symm {c c' : Cache σ} (h : same_frame c c') : same_frame c' c :=
  ⟨h.1.symm, h.2.1.symm, h.2.2.1.symm, h.2.2.2.symm⟩

theorem fits_of_size (c : Cache σ) (e e' : Entry)
    (h : e'.payload.length = e.payload.length) (hf : fits c e) : fits c e' := by
  intro m hm
  have := hf m hm
  unfold entry_size at this ⊢
  omega

/-- Taking an entry out of its page, making room on that page and inserting
an entry that fits every page completes. -/
theorem reinsert_progress (B : Backend σ) (c : Cache σ) (s1 : σ) (k : Key)
    (lvl need dest : Nat) (e2 : Entry) (hwb : within_budget c)
    (hfit : fits_every_page c) (hl : lvl < c.page_max.length)
    (hdest : dest < c.page_max.length) (hfe : fits c e2)
    (hneed : need ≤ max_size c lvl) :
    ∃ c', (resize_page B lvl need
        (remove_data_from_page { c with store := s1 } lvl k)).bind
      (fun c3 => insert_data_into_page B dest e2 c3) = some c' := by
  have hf2 : same_frame c (remove_data_from_page { c with store := s1 } lvl k) :=
    same_frame_set_page { c with store := s1 } lvl _
  have hwb2 : within_budget (remove_data_from_page { c with store := s1 } lvl k) :=
    within_budget_remove { c with store := s1 } lvl k hwb
  have hfit2 : fits_every_page
      (remove_data_from_page { c with store := s1 } lvl k) :=
    fits_every_page_of_subset hf2
      (mem_of_entries_le (entries_remove_le { c with store := s1 } lvl k)) hfit
  obtain ⟨c3, hc3⟩ := resize_page_progress B lvl need _ hwb2 hfit2 hl hneed
  have hr := resize_page_rel B lvl need _ c3 hc3
  have hf3 : same_frame c c3 := same_frame_trans hf2 hr.1.1
  have hwb3 := resize_page_budget B lvl need _ c3 hc3 hwb2
  have hfit3 : fits_every_page c3 :=
    fits_every_page_of_subset hr.1.1 (mem_of_entries_le hr.2.1) hfit2
  obtain ⟨c', hc'⟩ := insert_data_into_page_progress B dest e2 c3 hwb3 hfit3
    (fits_frame hf3 e2 hfe) (by rw [hf3.1]; exact hdest)
  exact ⟨c', by rw [hc3]; exact hc'⟩

/-- An operation completes when the cache has a page, is within its budgets
and holds only entries that fit every page, and the entry the operation puts
into a page fits every page. -/
theorem step_progress (B : Backend σ) (c : Cache σ) (op : Op)
    (hwb : within_budget c) (hP : 0 < pages_number c)
    (hfit : fits_every_page c)
    (hin : ∀ e, incoming B c op = some e → fits c e) :
    ∃ c', step B c op = some c' := by
  have hP' : 0 < c.page_max.length := hP
  cases op with
  | write r =>
    show ∃ c', (write B c r).2 = some c'
    cases hfind : find c r.key with
    | some le =>
      obtain ⟨lvl, e⟩ := le
      have hl : lvl < c.page_max.length := by
        rw [← hwb.1]
        exact (find_some c r.key lvl e hfind).1
      by_cases hcas : r.compare_and_swap_timestamp.isSome = true ∧
          r.compare_and_swap_timestamp ≠ some e.timestamp
      · refine ⟨c, ?_⟩
        unfold write
        simp only [hfind, if_pos hcas]
      · by_cases hbud : entry_size c (rewritten c r (write_sync B c.store r e).2) >
            max_size c (pages_number c - 1)
        · refine ⟨c, ?_⟩
          unfold write
          simp only [hfind, if_neg hcas, if_pos hbud]
        · have hi : incoming B c (.write r) =
              some (rewritten c r (write_sync B c.store r e).2) := by
            unfold incoming
            simp only [hfind, if_neg hcas, if_neg hbud]
          have hfe := hin _ hi
          obtain ⟨c', hc'⟩ := reinsert_progress B c (write_sync B c.store r e).1
            r.key lvl (entry_size c (rewritten c r (write_sync B c.store r e).2))
            (pages_number c - 1) _ hwb hfit hl (by unfold pages_number; omega) hfe
            (hfe _ (max_size_mem c lvl hl))
          refine ⟨c', ?_⟩
          unfold write
          simp only [hfind, if_neg hcas, if_neg hbud]
          exact hc'
    | none =>
      by_cases hst : is_stale B c r = true
      · refine ⟨c, ?_⟩
        unfold write
        simp only [hfind, if_pos hst]
      · by_cases hbud : entry_size c (fresh_entry c r) > max_size c 0
        · refine ⟨c, ?_⟩
          unfold write
          simp only [hfind, if_neg hst, if_pos hbud]
        · have hi : incoming B c (.write r) = some (fresh_entry c r) := by
            unfold incoming
            simp only [hfind, if_neg hst, if_neg hbud]
          obtain ⟨c', hc'⟩ := insert_data_into_page_progress B 0 _ c hwb hfit
            (hin _ hi) hP'
          refine ⟨c', ?_⟩
          unfold write
          simp only [hfind, if_neg hst, if_neg hbud]
          exact hc'
  | read r =>
    show ∃ c', (read B c r).2 = some c'
    cases hfind : find c r.key with
    | some le =>
      obtain ⟨lvl, e⟩ := le
      have hl : lvl < c.page_max.length := by
        rw [← hwb.1]
        exact (find_some c r.key lvl e hfind).1
      have hi : incoming B c (.read r) = some (read_sync B c.store e).2 := by
        unfold incoming
        simp only [hfind]
      have hf2 : same_frame c (remove_data_from_page
          { c with store := (read_sync B c.store e).1 } lvl
          (read_sync B c.store e).2.key) :=
        same_frame_set_page { c with store := (read_sync B c.store e).1 } lvl _
      obtain ⟨c', hc'⟩ := insert_data_into_page_progress B
        (min (lvl + 1) (pages_number c - 1)) (read_sync B c.store e).2
        (remove_data_from_page { c with store := (read_sync B c.store e).1 } lvl
          (read_sync B c.store e).2.key)
        (within_budget_remove { c with store := (read_sync B c.store e).1 } lvl _ hwb)
        (fits_every_page_of_subset hf2
          (mem_of_entries_le (entries_remove_le _ lvl _)) hfit)
        (fits_frame hf2 _ (hin _ hi))
        (by
          have h1 : (remove_data_from_page
              { c with store := (read_sync B c.store e).1 } lvl
              (read_sync B c.store e).2.key).page_max = c.page_max := hf2.1
          rw [h1]
          unfold pages_number
          omega)
      refine ⟨c', ?_⟩
      unfold read
      simp only [hfind]
      exact hc'
    | none =>
      by_cases hco : r.cache_only = true
      · refine ⟨c, ?_⟩
        unfold read
        simp only [hfind, if_pos hco]
      · cases hrd : B.backend_read c.store r.key with
        | none =>
          refine ⟨c, ?_⟩
          unfold read
          simp only [hfind, if_neg hco, hrd]
        | some s =>
          have hi : incoming B c (.read r) = some (populated_entry r.key s) := by
            unfold incoming
            simp only [hfind, if_neg hco, hrd, Option.map_some']
          obtain ⟨c', hc'⟩ := insert_data_into_page_progress B 0 _ c hwb hfit
            (hin _ hi) hP'
          refine ⟨c', ?_⟩
          unfold read
          simp only [hfind, if_neg hco, hrd]
          exact hc'
  | remove k co =>
    show ∃ c', (remove B c k co).2 = some c'
    unfold remove
    split
    · exact ⟨_, rfl⟩
    · split
      · exact ⟨_, rfl⟩
      · exact ⟨_, rfl⟩

/-- With the budgets `[100, 5]` a 10-byte entry is written to page 0 within
the budgets; its promotion to page 1 by a read does not complete, since the
loop of §4.8 finds page 1 over its budget with no tail entry to take. -/
theorem oversized_promotion_incomplete :
    (trace list_backend (empty_cache [100, 5])
        [.write (write_a false), .read (whole_read [97] false)]).map page_keys =
      [[[[97]], []]] ∧
    (run list_backend (empty_cache [100, 5])
        [.write (write_a false), .read (whole_read [97] false)]).isSome = false := by
  decide

/-! ### Reading what was written -/

theorem view_whole (payload : List Nat) : view payload none none = .ok payload := by
  simp [view]

theorem read_hit (B : Backend σ) (c : Cache σ) (r : ReadReq) (lvl : Nat)
    (e : Entry) (h : find c r.key = some (lvl, e)) :
    (read B c r).1 = view e.payload r.offset r.size := by
  unfold read
  rw [h]

theorem mem_of_find (c : Cache σ) (k : Key) (lvl : Nat) (e : Entry)
    (h : find c k = some (lvl, e)) : e ∈ entries c ∧ e.key = k :=
  ⟨mem_entries_of_mem_page c lvl e (find_some c k lvl e h).2.1,
    (find_some c k lvl e h).2.2⟩

/-- The entry a read puts into a page: the entry found, flushed if it was in
append mode, or the record of the backend. -/
theorem incoming_read (B : Backend σ) (c : Cache σ) (r : ReadReq) (x : Entry)
    (h : incoming B c (.read r) = some x) :
    (∃ lvl e, find c r.key = some (lvl, e) ∧ x = (read_sync B c.store e).2) ∨
    (∃ s, find c r.key = none ∧ B.backend_read c.store r.key = some s ∧
      x = populated_entry r.key s) := by
  unfold incoming at h
  cases hfind : find c r.key with
  | some le =>
    obtain ⟨lvl, e⟩ := le
    simp only [hfind] at h
    exact Or.inl ⟨lvl, e, rfl, (Option.some.inj h).symm⟩
  | none =>
    simp only [hfind] at h
    split at h
    · exact absurd h (by simp)
    · obtain ⟨s, hs, hx⟩ := Option.map_eq_some'.1 h
      exact Or.inr ⟨s, rfl, hs, hx.symm⟩

/-- A read of the entry found completes when the cache is within its
budgets and its entries fit every page. -/
theorem holds_read_completes (B : Backend σ) (k : Key) (v : List Nat)
    (c : Cache σ) (co : Bool) (hwb : within_budget c) (hP : 0 < pages_number c)
    (hfit : fits_every_page c) (h : holds k v c) :
    ((read B c (whole_read k co)).2).isSome = true := by
  obtain ⟨p, e, hfind, _⟩ := h
  obtain ⟨c', hc'⟩ := step_progress B c (.read (whole_read k co)) hwb hP hfit
    (by
      intro x hx
      rcases incoming_read B c (whole_read k co) x hx with
        ⟨lvl, e1, hf1, rfl⟩ | ⟨s, hf1, _⟩
      · exact fits_of_size c e1 _ (by rw [read_sync_payload])
          (hfit e1 (mem_of_find c k lvl e1 hf1).1)
      · have : find c k = none := hf1
        rw [this] at hfind
        exact absurd hfind (by simp))
  have : (read B c (whole_read k co)).2 = some c' := hc'
  rw [this]
  rfl

/-- C6: a write to an existing entry that supplies a compare-and-swap
timestamp different from the entry's timestamp fails with CasMismatch and
leaves the cache state unchanged (the entry with its payload and timestamp
included), so a following read of the whole payload returns the old value;
that read completes when the cache is within its budgets and its entries fit
every page. -/
theorem cas_mismatch_atomic (B : Backend σ) (c : Cache σ) (r : WriteReq)
    (lvl : Nat) (e : Entry) (T2 : dnet_time) (cache_only : Bool)
    (hfind : find c r.key = some (lvl, e))
    (hcas : r.compare_and_swap_timestamp = some T2)
    (hne : T2 ≠ e.timestamp) :
    write B c r = (.error .CasMismatch, some c) ∧
    (write B c r).2.map (fun c1 => find c1 r.key) = some (some (lvl, e)) ∧
    (write B c r).2.map (fun c1 => (read B c1 (whole_read r.key cache_only)).1) =
      some (.ok e.payload) ∧
    (within_budget c → fits_every_page c →
      (write B c r).2.map
        (fun c1 => ((read B c1 (whole_read r.key cache_only)).2).isSome) =
        some true) := by
  have hw : write B c r = (.error .CasMismatch, some c) := by
    unfold write
    rw [hfind]
    simp only
    rw [if_pos]
    rw [hcas]
    exact ⟨rfl, fun h => hne (Option.some.inj h)⟩
  rw [hw]
  refine ⟨rfl, ?_, ?_, ?_⟩
  · show some (find c r.key) = _
    rw [hfind]
  · show some (read B c (whole_read r.key cache_only)).1 = _
    rw [read_hit B c (whole_read r.key cache_only) lvl e hfind]
    exact congrArg some (view_whole _)
  · intro hwb hfit
    show some ((read B c (whole_read r.key cache_only)).2).isSome = _
    have hP : 0 < pages_number c := by
      have := (find_some c r.key lvl e hfind).1
      have h1 := hwb.1
      unfold pages_number
      omega
    rw [holds_read_completes B r.key e.payload c cache_only hwb hP hfit
      ⟨lvl, e, hfind, rfl⟩]

theorem cas_mismatch_atomic_witness :
    find (after_write [100] (plain_write [107] [118] 1 false)) [107] =
      some (0, fresh_entry (empty_cache [100]) (plain_write [107] [118] 1 false)) ∧
    write list_backend (after_write [100] (plain_write [107] [118] 1 false))
        (cas_write [107] [119] 2 ⟨5, 0⟩) =
      (.error .CasMismatch,
        some (after_write [100] (plain_write [107] [118] 1 false))) ∧
    (write list_backend (after_write [100] (plain_write [107] [118] 1 false))
        (cas_write [107] [119] 2 ⟨5, 0⟩)).2.map
      (fun c1 => (read list_backend c1 (whole_read [107] false)).1) =
      some (.ok [118]) :=
  ⟨rfl,
    (cas_mismatch_atomic list_backend
      (after_write [100] (plain_write [107] [118] 1 false))
      (cas_write [107] [119] 2 ⟨5, 0⟩) 0
      (fresh_entry (empty_cache [100]) (plain_write [107] [118] 1 false)) ⟨5, 0⟩ false
      rfl rfl (by decide)).1,
    (cas_mismatch_atomic list_backend
      (after_write [100] (plain_write [107] [118] 1 false))
      (cas_write [107] [119] 2 ⟨5, 0⟩) 0
      (fresh_entry (empty_cache [100]) (plain_write [107] [118] 1 false)) ⟨5, 0⟩ false
      rfl rfl (by decide)).2.2.1⟩

end slru_spec
